import Mathlib

/-!
Verification of the market-data ingestion core
(`aetherium-trader-datapipeline`): calendar ranges and gap detection
(`ingestion/domain`), job-state fencing (`ingestion/infrastructure/src/state/redis.rs`),
the backfill coordinator (`ingestion/application/src/backfill_service.rs`) and the
multi-window rate limiter (`ingestion/infrastructure/src/rate_limiter.rs`).

Conventions of the shallow embedding:
* `chrono::NaiveDate` is represented by its signed day number since 1970-01-01
  (the ordering, day arithmetic and the timestamp conversions of chrono coincide
  with this representation away from the ±262000-year overflow boundary, which
  no claim touches).
* `DateTime<Utc>` values are represented by their `timestamp_millis()` integer.
* Fallible Rust functions return `Except`; async methods on injected trait
  objects become pure oracle functions threaded explicitly; the job-state
  store of one `job_key` is threaded as an explicit value together with the
  log of the records it was asked to persist.
-/

namespace Pipeline

/-! ### DateRange (src/ingestion/domain/src/date_range.rs) -/

/-- Inclusive `[start, end]` of calendar days.  Rust's field `end` is a Lean
keyword and is rendered `stop`. -/
structure DateRange where
  start : Int
  stop : Int
deriving DecidableEq, Repr

inductive DateRangeError where
  | StartAfterEnd
deriving DecidableEq, Repr

/-- `DateRange::new`: fails with `StartAfterEnd` when `start > end`. -/
def DateRange.new (start stop : Int) : Except DateRangeError DateRange :=
  if start > stop then .error .StartAfterEnd
  else .ok ⟨start, stop⟩

def DateRange.single_day (date : Int) : DateRange := ⟨date, date⟩

/-- `DateRange::contains`. -/
def DateRange.contains (r : DateRange) (date : Int) : Bool :=
  decide (date ≥ r.start) && decide (date ≤ r.stop)

/-- `DateRange::overlaps`. -/
def DateRange.overlaps (r other : DateRange) : Bool :=
  decide (r.start ≤ other.stop) && decide (r.stop ≥ other.start)

/-- The body of the `while current <= self.end` loop of `split_by_days`,
recursing on the remaining iteration count (the loop runs exactly
`(stop + 1 - current).toNat` times). -/
def splitFuel : Nat → Int → List DateRange
  | 0, _ => []
  | n + 1, current => DateRange.single_day current :: splitFuel n (current + 1)

/-- The `while current <= self.end` loop of `split_by_days`. -/
def splitGo (current stop : Int) : List DateRange :=
  splitFuel ((stop + 1 - current).toNat) current

/-- `DateRange::split_by_days`: the ordered sequence of single-day ranges. -/
def DateRange.split_by_days (r : DateRange) : List DateRange :=
  splitGo r.start r.stop

/-! ### DataGap and detect_gaps (src/ingestion/domain/src/data_gap.rs) -/

structure DataGap where
  range : DateRange
  symbol : String
deriving DecidableEq, Repr

def DataGap.new (symbol : String) (range : DateRange) : DataGap :=
  ⟨range, symbol⟩

/-- One iteration of the `for day in expected_range.split_by_days()` loop of
`detect_gaps`: the state is the accumulated gap list (`gaps`) and the open gap
start (`current_gap_start`).  The two `DateRange::new(..).expect(..)`
constructions in the source cannot fail (`gap_start ≤ date - 1` whenever they
are reached); the embedding builds the range directly. -/
def detectStep (symbol : String) (existing_dates : List Int)
    (st : List DataGap × Option Int) (day : DateRange) :
    List DataGap × Option Int :=
  let date := day.start
  let presentDay := existing_dates.contains date
  match presentDay, st.2 with
  | false, none => (st.1, some date)
  | true, some gap_start =>
      (st.1 ++ [DataGap.new symbol ⟨gap_start, date - 1⟩], none)
  | _, _ => st

/-- `detect_gaps(symbol, expected_range, existing_dates)`: walk the range day by
day, closing a maximal absence run when a present day is observed, and flush a
gap still open at the end of the range. -/
def detect_gaps (symbol : String) (expected_range : DateRange)
    (existing_dates : List Int) : List DataGap :=
  let st := expected_range.split_by_days.foldl
    (detectStep symbol existing_dates) ([], none)
  match st.2 with
  | some gap_start =>
      st.1 ++ [DataGap.new symbol ⟨gap_start, expected_range.stop⟩]
  | none => st.1

/-! ### Timestamps (src/ingestion/application/src/backfill_service.rs) -/

def millisPerDay : Int := 86400000

/-- `start_of_day_ts`: midnight of the day, in ms since epoch. -/
def start_of_day_ts (date : Int) : Int := date * millisPerDay

/-- `end_of_day_ts`: 23:59:59 of the day, in ms since epoch. -/
def end_of_day_ts (date : Int) : Int := date * millisPerDay + 86399000

/-- `CursorExt::timestamp_to_date` via
`DateTime::<Utc>::from_timestamp_millis(..).date_naive()`: the calendar day a
millisecond timestamp falls in.  chrono returns `None` only outside the
representable-year range; the embedding keeps the `Option` shape but is total
on `Int`. -/
def timestamp_to_date (ms : Int) : Option Int :=
  some (ms.fdiv millisPerDay)

/-- Gregorian calendar date of a day number (the algorithm underlying
chrono's day-number to year/month/day conversion), for rendering `NaiveDate`
in `format!` strings. -/
def civilFromDays (z : Int) : Int × Int × Int :=
  let w := z + 719468
  let era := w.fdiv 146097
  let doe := w - era * 146097
  let yoe := (doe - doe / 1460 + doe / 36524 - doe / 146096) / 365
  let y := yoe + era * 400
  let doy := doe - (365 * yoe + yoe / 4 - yoe / 100)
  let mp := (5 * doy + 2) / 153
  let d := doy - (153 * mp + 2) / 5 + 1
  let m := mp + (if mp < 10 then 3 else -9)
  (y + (if m ≤ 2 then 1 else 0), m, d)

def padTwo (n : Int) : String :=
  if n < 10 then "0" ++ toString n else toString n

/-- `NaiveDate`'s `Display` (ISO `YYYY-MM-DD`), for years rendered with four
digits. -/
def dateToString (day : Int) : String :=
  let c := civilFromDays day
  toString c.1 ++ "-" ++ padTwo c.2.1 ++ "-" ++ padTwo c.2.2

/-- `format!("ingest:job:{}:{}", symbol, range.start())`. -/
def job_key (symbol : String) (range_start : Int) : String :=
  "ingest:job:" ++ symbol ++ ":" ++ dateToString range_start

/-! ### JobStatus / JobState (src/ingestion/application/src/job_state.rs) -/

inductive JobStatus where
  | Pending
  | Running
  | Completed
  | Failed
deriving DecidableEq, Repr

/-- `JobStatus::as_str`. -/
def JobStatus.as_str : JobStatus → String
  | .Pending => "PENDING"
  | .Running => "RUNNING"
  | .Completed => "COMPLETED"
  | .Failed => "FAILED"

/-- `JobStatus::from_str`. -/
def JobStatus.from_str (value : String) : Option JobStatus :=
  if value = "PENDING" then some .Pending
  else if value = "RUNNING" then some .Running
  else if value = "COMPLETED" then some .Completed
  else if value = "FAILED" then some .Failed
  else none

structure CriticalRange where
  start : String
  stop : String
deriving DecidableEq, Repr

structure JobState where
  status : JobStatus
  job_instance_id : String
  cursor : Int
  end_time : Int
  heartbeat_at : Int
  critical_ranges : List CriticalRange
  last_error_type : Option String
deriving DecidableEq, Repr

/-- `JobState::new`. -/
def JobState.new (job_instance_id : String) (status : JobStatus)
    (cursor end_time heartbeat_at : Int) : JobState :=
  { status := status
    job_instance_id := job_instance_id
    cursor := cursor
    end_time := end_time
    heartbeat_at := heartbeat_at
    critical_ranges := []
    last_error_type := none }

inductive JobStateError where
  | NotFound (key : String)
  | StaleInstance (key : String)
  | Backend (msg : String)
deriving DecidableEq, Repr

/-- `JobStateError`'s `thiserror` display strings. -/
def JobStateError.message : JobStateError → String
  | .NotFound key => "Job state not found: " ++ key
  | .StaleInstance key => "Concurrent modification detected for job " ++ key
  | .Backend msg => "Backend error: " ++ msg

/-- `parse_status` (src/ingestion/infrastructure/src/state/redis.rs). -/
def parse_status (raw : String) : Except JobStateError JobStatus :=
  match JobStatus.from_str raw with
  | some s => .ok s
  | none => .error (.Backend ("Unrecognized job status value " ++ raw))

/-! ### The job-state repository
(src/ingestion/infrastructure/src/state/redis.rs)

The store of one `job_key` is a single optional record.  Every persisted
record is also appended to a write log so that claims about sequences of
writes can be stated.  The repository model is pure: a mutation's only
effect is the `StoreLog` it returns, so an `.error` result leaves the store
exactly as it was. -/

structure StoreLog where
  record : Option JobState
  writes : List JobState
deriving DecidableEq, Repr

/-- `RedisJobStateRepository::upsert` / `write_full_state`: unconditional
write of the entire record. -/
def upsert (s : StoreLog) (state : JobState) : StoreLog :=
  ⟨some state, s.writes ++ [state]⟩

/-- `RedisJobStateRepository::update_with`: read the record, fail `NotFound`
if absent, fail `StaleInstance` if the stored `job_instance_id` differs from
the caller's, otherwise apply the updater and persist.  (In this sequential
single-writer model the `CHECK_AND_SET_SCRIPT` re-check performed by
`persist_state` coincides with the initial check.) -/
def update_with (s : StoreLog) (jobKey : String) (job_instance_id : String)
    (updater : JobState → JobState) : Except JobStateError StoreLog :=
  match s.record with
  | none => .error (.NotFound jobKey)
  | some state =>
      if state.job_instance_id ≠ job_instance_id then
        .error (.StaleInstance jobKey)
      else
        .ok (upsert s (updater state))

/-- `RedisJobStateRepository::update_cursor`. -/
def update_cursor (s : StoreLog) (jobKey : String) (job_instance_id : String)
    (cursor : Int) : Except JobStateError StoreLog :=
  update_with s jobKey job_instance_id (fun state => { state with cursor := cursor })

/-- `RedisJobStateRepository::update_status`. -/
def update_status (s : StoreLog) (jobKey : String) (job_instance_id : String)
    (status : JobStatus) : Except JobStateError StoreLog :=
  update_with s jobKey job_instance_id (fun state => { state with status := status })

/-- `RedisJobStateRepository::heartbeat`. -/
def heartbeat (s : StoreLog) (jobKey : String) (job_instance_id : String)
    (heartbeat_at : Int) : Except JobStateError StoreLog :=
  update_with s jobKey job_instance_id (fun state => { state with heartbeat_at := heartbeat_at })

/-- `RedisJobStateRepository::save_error`. -/
def save_error (s : StoreLog) (jobKey : String) (job_instance_id : String)
    (message : String) : Except JobStateError StoreLog :=
  update_with s jobKey job_instance_id
    (fun state => { state with last_error_type := some message })

/-! ### Tick (src/ingestion/domain/src/tick.rs) -/

/-- A market tick.  `rust_decimal::Decimal` prices are represented as `Rat`;
the backfill coordinator reads only `timestamp` (as `timestamp_millis()`) and
the batch length. -/
structure Tick where
  timestamp : Int
  symbol : String
  bid_price : Rat
  bid_size : Nat
  ask_price : Rat
  ask_size : Nat
  last_price : Rat
  last_size : Nat
deriving DecidableEq

/-! ### Error types of the collaborators
(src/ingestion/application/src/historical_data.rs, ports.rs) -/

inductive HistoricalDataError where
  | RateLimitExceeded
  | DataNotAvailable (date : Int)
  | GatewayError (msg : String)
  | IoError (msg : String)
deriving DecidableEq

def HistoricalDataError.message : HistoricalDataError → String
  | .RateLimitExceeded => "API rate limit exceeded"
  | .DataNotAvailable date => "Historical data not available for date: " ++ dateToString date
  | .GatewayError msg => "Gateway error: " ++ msg
  | .IoError msg => "IO error: " ++ msg

inductive GapDetectionError where
  | IoError (msg : String)
  | InvalidDateRange
deriving DecidableEq

def GapDetectionError.message : GapDetectionError → String
  | .IoError msg => "IO error: " ++ msg
  | .InvalidDateRange => "Invalid date range"

inductive RepositoryError where
  | IoError (msg : String)
  | SerializationError (msg : String)
  | FileRotationError (msg : String)
deriving DecidableEq

def RepositoryError.message : RepositoryError → String
  | .IoError msg => "IO error: " ++ msg
  | .SerializationError msg => "Serialization error: " ++ msg
  | .FileRotationError msg => "File rotation error: " ++ msg

/-! ### BackfillService (src/ingestion/application/src/backfill_service.rs) -/

inductive BackfillError where
  | GatewayError (e : HistoricalDataError)
  | GapDetectionError (e : GapDetectionError)
  | RepositoryError (e : RepositoryError)
  | JobStateError (e : JobStateError)
  | JobAlreadyRunning (key : String)
deriving DecidableEq

/-- `BackfillError`'s `thiserror` display strings (`e.to_string()` as pushed
into `failed_days`). -/
def BackfillError.message : BackfillError → String
  | .GatewayError e => "Gateway error: " ++ e.message
  | .GapDetectionError e => "Gap detection error: " ++ e.message
  | .RepositoryError e => "Repository error: " ++ e.message
  | .JobStateError e => "Job state error: " ++ e.message
  | .JobAlreadyRunning key => "Job already running: " ++ key

/-- The injected collaborators of `BackfillServiceImpl`, determinized as pure
functions: `fetch` is `HistoricalDataGateway::fetch_historical_ticks`,
`detect` is `GapDetector::detect_gaps`, `save` is
`TickRepository::save_batch`, `shutdownResult` the outcome of
`TickRepository::shutdown`. -/
structure Oracles where
  fetch : String → Int → Except HistoricalDataError (List Tick)
  detect : String → DateRange → Except GapDetectionError (List DateRange)
  save : List Tick → Except RepositoryError Unit
  shutdownResult : Except RepositoryError Unit

/-- `HEARTBEAT_TIMEOUT` = `Duration::seconds(300)`, in ms. -/
def HEARTBEAT_TIMEOUT : Int := 300000

structure JobContext where
  job_key : String
  state : JobState
deriving DecidableEq, Repr

structure DayResult where
  tick_count : Nat
  last_timestamp : Option Int
deriving DecidableEq, Repr

structure BackfillReport where
  symbol : String
  range : DateRange
  days_processed : Nat
  total_ticks : Nat
  failed_days : List (Int × String)
deriving DecidableEq, Repr

/-- `BackfillServiceImpl::backfill_single_day`: fetch a day's ticks, save the
batch when non-empty, and report the count and the last tick's timestamp. -/
def backfill_single_day (o : Oracles) (symbol : String) (date : Int) :
    Except BackfillError DayResult :=
  match o.fetch symbol date with
  | .error e => .error (.GatewayError e)
  | .ok ticks =>
      let tick_count := ticks.length
      let last_timestamp := ticks.getLast?.map Tick.timestamp
      if ticks.isEmpty then
        .ok ⟨tick_count, last_timestamp⟩
      else
        match o.save ticks with
        | .error e => .error (.RepositoryError e)
        | .ok _ => .ok ⟨tick_count, last_timestamp⟩

/-- The record created on the fresh path of `initialize_job`:
`cursor = start_of_day_ts(range.start).saturating_sub(1)` (saturation is at
`i64::MIN`, far outside every claim, and is modelled as plain subtraction),
`end_time = end_of_day_ts(range.end)`, status `Running`. -/
def freshJobState (now : Int) (newId : String) (range : DateRange) : JobState :=
  JobState.new newId JobStatus.Running (start_of_day_ts range.start - 1)
    (end_of_day_ts range.stop) now

/-- `BackfillServiceImpl::initialize_job`.  `newId` stands for the
`Uuid::new_v4()` minted by this invocation.  Returns the `JobContext` or the
error, together with the store (unchanged when no write happened). -/
def initialize_job (s : StoreLog) (now : Int) (newId : String)
    (symbol : String) (range : DateRange) :
    Except BackfillError JobContext × StoreLog :=
  let jk := job_key symbol range.start
  match s.record with
  | some state =>
      if state.status = JobStatus.Running then
        if now - state.heartbeat_at ≤ HEARTBEAT_TIMEOUT then
          (.error (.JobAlreadyRunning jk), s)
        else
          let takeover := { state with
            job_instance_id := newId
            status := JobStatus.Running
            heartbeat_at := now }
          (.ok ⟨jk, takeover⟩, upsert s takeover)
      else
        let fresh := freshJobState now newId range
        (.ok ⟨jk, fresh⟩, upsert s fresh)
  | none =>
      let fresh := freshJobState now newId range
      (.ok ⟨jk, fresh⟩, upsert s fresh)

/-- `BackfillServiceImpl::finalize_job`: fenced status update followed by a
heartbeat. -/
def finalize_job (s : StoreLog) (ctx : JobContext) (now : Int)
    (status : JobStatus) : Except BackfillError JobContext × StoreLog :=
  match update_status s ctx.job_key ctx.state.job_instance_id status with
  | .error e => (.error (.JobStateError e), s)
  | .ok s1 =>
      let ctx' := { ctx with state := { ctx.state with status := status } }
      match heartbeat s1 ctx'.job_key ctx'.state.job_instance_id now with
      | .error e => (.error (.JobStateError e), s1)
      | .ok s2 => (.ok ctx', s2)

/-- `BackfillServiceImpl::record_error`. -/
def record_error (s : StoreLog) (ctx : JobContext) (message : String) :
    Except BackfillError (JobContext × StoreLog) :=
  match save_error s ctx.job_key ctx.state.job_instance_id message with
  | .error e => .error (.JobStateError e)
  | .ok s1 =>
      .ok ({ ctx with state := { ctx.state with last_error_type := some message } }, s1)

/-- `resume_start`: the effective start day computed from the cursor. -/
def resume_start (range_start cursor : Int) : Int :=
  let start_ts := start_of_day_ts range_start
  if cursor < start_ts then range_start
  else (timestamp_to_date cursor).getD range_start

/-- `BTreeSet<NaiveDate>` insertion, modelled on sorted duplicate-free
lists. -/
def insertSorted (d : Int) : List Int → List Int
  | [] => [d]
  | x :: xs =>
      if d < x then d :: x :: xs
      else if d = x then x :: xs
      else x :: insertSorted d xs

/-- `plan_days_to_process`: the ordered set holding `effective_start` (when it
does not exceed `range_end`) plus every day of every gap clipped to
`[effective_start, range_end]`. -/
def plan_days_to_process (effective_start range_end : Int)
    (gaps : List DateRange) : List Int :=
  let days := if effective_start ≤ range_end then insertSorted effective_start [] else []
  gaps.foldl (fun days gap =>
    gap.split_by_days.foldl (fun days day_range =>
      let date := day_range.start
      if date < effective_start ∨ date > range_end then days
      else insertSorted date days) days) days

/-- The per-day loop accumulator of `backfill_range`: the job context (whose
`state.cursor` is the loop's checkpoint) and the report counters. -/
structure RunAcc where
  ctx : JobContext
  total_ticks : Nat
  days_processed : Nat
  failed_days : List (Int × String)
  job_failed : Bool
deriving DecidableEq, Repr

/-- The `for date in days_to_process` loop of `backfill_range`: skip days whose
`end_of_day_ts` is at or below the cursor, heartbeat, fetch-and-save, advance
the cursor (last tick's timestamp, or `end_of_day_ts` for a processed empty
day) under fencing, and on a day failure record the error and continue. -/
def runDays (o : Oracles) (symbol : String) (now : Int) :
    List Int → RunAcc → StoreLog → Except BackfillError RunAcc × StoreLog
  | [], acc, s => (.ok acc, s)
  | date :: rest, acc, s =>
      let day_end := end_of_day_ts date
      if day_end ≤ acc.ctx.state.cursor then
        runDays o symbol now rest acc s
      else
        match heartbeat s acc.ctx.job_key acc.ctx.state.job_instance_id now with
        | .error e => (.error (.JobStateError e), s)
        | .ok s1 =>
            match backfill_single_day o symbol date with
            | .ok result =>
                let cursor_ts := result.last_timestamp.getD day_end
                match update_cursor s1 acc.ctx.job_key acc.ctx.state.job_instance_id cursor_ts with
                | .error e => (.error (.JobStateError e), s1)
                | .ok s2 =>
                    runDays o symbol now rest
                      { acc with
                        total_ticks := acc.total_ticks + result.tick_count
                        days_processed := acc.days_processed + 1
                        ctx := { acc.ctx with
                          state := { acc.ctx.state with cursor := cursor_ts } } } s2
            | .error e =>
                let msg := e.message
                match record_error s1 acc.ctx msg with
                | .error e2 => (.error e2, s1)
                | .ok (ctx', s2) =>
                    runDays o symbol now rest
                      { acc with
                        ctx := ctx'
                        failed_days := acc.failed_days ++ [(date, msg)]
                        job_failed := true } s2

/-- `BackfillServiceImpl::backfill_range`.  `now` stands for `Utc::now()`
(frozen for the run) and `newId` for the instance id minted during lease
acquisition.  The `DateRange::new(..).expect(..)` for the effective range
cannot fail on the taken branch (`effective_start ≤ range.end`). -/
def backfill_range (o : Oracles) (now : Int) (newId : String) (symbol : String)
    (range : DateRange) (s0 : StoreLog) :
    Except BackfillError BackfillReport × StoreLog :=
  match initialize_job s0 now newId symbol range with
  | (.error e, s) => (.error e, s)
  | (.ok ctx, s) =>
      let effective_start := resume_start range.start ctx.state.cursor
      if effective_start > range.stop then
        match finalize_job s ctx now JobStatus.Completed with
        | (.error e, s') => (.error e, s')
        | (.ok _, s') =>
            (.ok { symbol := symbol, range := range, days_processed := 0,
                   total_ticks := 0, failed_days := [] }, s')
      else
        let effective_range : DateRange := ⟨effective_start, range.stop⟩
        match o.detect symbol effective_range with
        | .error e => (.error (.GapDetectionError e), s)
        | .ok gaps =>
            let days_to_process := plan_days_to_process effective_start range.stop gaps
            match runDays o symbol now days_to_process ⟨ctx, 0, 0, [], false⟩ s with
            | (.error e, s') => (.error e, s')
            | (.ok acc, s') =>
                match o.shutdownResult with
                | .error e => (.error (.RepositoryError e), s')
                | .ok _ =>
                    let final_status :=
                      if acc.job_failed then JobStatus.Failed else JobStatus.Completed
                    match finalize_job s' acc.ctx now final_status with
                    | (.error e, s'') => (.error e, s'')
                    | (.ok _, s'') =>
                        (.ok { symbol := symbol, range := range,
                               days_processed := acc.days_processed,
                               total_ticks := acc.total_ticks,
                               failed_days := acc.failed_days }, s'')

/-! ### Specification-side helpers for the backfill claims -/

/-- The per-day classification induced by the loop of `backfill_range`: for a
day list and an entry cursor, each day is skipped (already covered by the
cursor), succeeded (with its tick count) or failed (with the recorded
message); the cursor advances exactly as the loop advances it. -/
inductive DayOutcome where
  | skipped
  | succeeded (tick_count : Nat)
  | failed (msg : String)
deriving DecidableEq, Repr

def DayOutcome.isSucceeded : DayOutcome → Bool
  | .succeeded _ => true
  | _ => false

def dayOutcomes (o : Oracles) (symbol : String) :
    List Int → Int → List (Int × DayOutcome)
  | [], _ => []
  | date :: rest, cursor =>
      let day_end := end_of_day_ts date
      if day_end ≤ cursor then
        (date, .skipped) :: dayOutcomes o symbol rest cursor
      else
        match backfill_single_day o symbol date with
        | .ok result =>
            (date, .succeeded result.tick_count) ::
              dayOutcomes o symbol rest (result.last_timestamp.getD day_end)
        | .error e =>
            (date, .failed e.message) :: dayOutcomes o symbol rest cursor

/-- Every tick of the batch is timestamped inside the fetched calendar day. -/
def ticksWithinDay (ticks : List Tick) (date : Int) : Prop :=
  ∀ t ∈ ticks, start_of_day_ts date ≤ t.timestamp ∧ t.timestamp ≤ end_of_day_ts date

/-- A cursor value that does not lie strictly inside a day's processing
window: it sits in the final second of its own calendar day (as does
`end_of_day_ts d` for an empty processed day `d`, and
`start_of_day_ts d - 1` as created fresh). -/
def dayAligned (c : Int) : Prop :=
  end_of_day_ts (c.fdiv millisPerDay) ≤ c

/-! ### The detect_gaps walk, as a forward recursion

`gapsRef` emits the gaps the `detect_gaps` loop still produces from state
`(current_gap_start, current)` on; `flushGaps` is the flush after the loop. -/

/-- Final flush of `detect_gaps`: close a gap still open at
`expected_range.end`. -/
def flushGaps (symbol : String) (stop : Int) :
    List DataGap × Option Int → List DataGap
  | (gaps, some gap_start) => gaps ++ [DataGap.new symbol ⟨gap_start, stop⟩]
  | (gaps, none) => gaps

def gapsRef (symbol : String) (X : List Int) (o : Option Int)
    (current stop : Int) : List DataGap :=
  if h : current ≤ stop then
    match X.contains current, o with
    | false, none => gapsRef symbol X (some current) (current + 1) stop
    | true, some gap_start =>
        DataGap.new symbol ⟨gap_start, current - 1⟩ ::
          gapsRef symbol X none (current + 1) stop
    | _, _ => gapsRef symbol X o (current + 1) stop
  else
    match o with
    | some gap_start => [DataGap.new symbol ⟨gap_start, stop⟩]
    | none => []
termination_by (stop + 1 - current).toNat
decreasing_by
  all_goals simp_wf
  all_goals exact Int.lt_add_one_iff.mpr h

/-! ### The rate limiter
(src/ingestion/infrastructure/src/rate_limiter.rs) -/

/-- `RateLimitWindow { limit, duration_secs }`. -/
structure RateLimitWindow where
  limit : Nat
  duration_secs : Nat
deriving DecidableEq, Repr

/-- One window's shared state: its sorted-set entries `(score now_ms,
member request_id)`. -/
structure WinState where
  window : RateLimitWindow
  entries : List (Int × String)
deriving DecidableEq, Repr

/-- Modelled from the spec: `IbRateLimiter::acquire` invokes
`rate_limiting/limiter.lua` (referenced by `include_str!` but absent from
src/), whose atomic decision algorithm is specified in §4.4.  Step 1: purge
entries with score below `now - duration * 1000`. -/
def purgeWindow (now_ms : Int) (w : WinState) : WinState :=
  { w with entries :=
      w.entries.filter (fun e => decide (now_ms - (w.window.duration_secs : Int) * 1000 ≤ e.1)) }

/-- Modelled from the spec (§4.4, step 2): a window at or above its limit. -/
def windowFull (w : WinState) : Bool :=
  decide (w.window.limit ≤ w.entries.length)

/-- Modelled from the spec (§4.4, step 3): insert `(now_ms, request_id)`.
The TTL refresh of step 3 only re-drops entries already removed by future
purges and has no observable effect in this model. -/
def admitEntry (now_ms : Int) (request_id : String) (w : WinState) : WinState :=
  { w with entries := (now_ms, request_id) :: w.entries }

/-- Modelled from the spec (§4.4): the atomic decision — purge every window,
return DENIED if any is full (no insertion), otherwise insert the fresh
request id into every window and return ADMITTED. -/
def rateLimitScript (ws : List WinState) (now_ms : Int) (request_id : String) :
    Bool × List WinState :=
  let purged := ws.map (purgeWindow now_ms)
  if purged.any windowFull then (false, purged)
  else (true, purged.map (admitEntry now_ms request_id))

/-- A stream of script invocations (each `acquire` retry issues one), threaded
through the shared window state, with the decision recorded per attempt. -/
def runAcquires : List WinState → List (Int × String) →
    List ((Int × String) × Bool) × List WinState
  | ws, [] => ([], ws)
  | ws, (t, id) :: rest =>
      let step := rateLimitScript ws t id
      let tail := runAcquires step.2 rest
      (((t, id), step.1) :: tail.1, tail.2)

/-- The number of admitted attempts whose timestamp lies in `[lo, hi]`. -/
def countAdmitted (lo hi : Int) (results : List ((Int × String) × Bool)) : Nat :=
  (results.filter (fun r => r.2 && decide (lo ≤ r.1.1) && decide (r.1.1 ≤ hi))).length

/-- The count of a window's entries scored in `[lo, ∞)`. -/
def entriesFrom (lo : Int) (w : WinState) : Nat :=
  (w.entries.filter (fun e => decide (lo ≤ e.1))).length

/-! ## Theorems -/

/-! ### Basic facts about `split_by_days` -/

theorem splitFuel_eq (n : Nat) :
    ∀ current : Int, splitFuel n current =
      (List.range n).map (fun i : Nat => DateRange.single_day (current + (i : Int))) := by
  induction n with
  | zero => intro current; rfl
  | succ k ih =>
      intro current
      rw [splitFuel, ih (current + 1),
        List.range_succ_eq_map, List.map_cons, List.map_map]
      refine congrArg₂ _ (by simp) ?_
      refine List.map_congr_left fun i _ => ?_
      simp only [Function.comp_apply]
      congr 1
      push_cast
      ring

theorem splitGo_eq (current stop : Int) :
    splitGo current stop =
      (List.range (stop + 1 - current).toNat).map
        (fun i : Nat => DateRange.single_day (current + (i : Int))) :=
  splitFuel_eq _ current

theorem splitGo_zero (current stop : Int)
    (h : (stop + 1 - current).toNat = 0) :
    splitGo current stop = [] := by
  unfold splitGo
  rw [h]
  rfl

theorem splitGo_succ (current stop : Int) (k : Nat)
    (h : (stop + 1 - current).toNat = k + 1) :
    splitGo current stop =
      DateRange.single_day current :: splitGo (current + 1) stop := by
  unfold splitGo
  rw [h, show (stop + 1 - (current + 1)).toNat = k by omega]
  rfl

theorem length_splitGo (current stop : Int) :
    (splitGo current stop).length = (stop + 1 - current).toNat := by
  rw [splitGo_eq]
  simp

theorem getElem_splitGo (current stop : Int) (i : Nat)
    (h : i < (splitGo current stop).length) :
    (splitGo current stop)[i] = DateRange.single_day (current + (i : Int)) := by
  have hl := length_splitGo current stop
  simp only [splitGo_eq] at h ⊢
  rw [List.getElem_map, List.getElem_range]

theorem mem_splitGo (current stop : Int) (r : DateRange) :
    r ∈ splitGo current stop ↔
      ∃ d, current ≤ d ∧ d ≤ stop ∧ r = DateRange.single_day d := by
  rw [splitGo_eq]
  simp only [List.mem_map, List.mem_range]
  constructor
  · rintro ⟨i, hi, rfl⟩
    exact ⟨current + i, by omega, by omega, rfl⟩
  · rintro ⟨d, hcd, hds, rfl⟩
    refine ⟨(d - current).toNat, by omega, ?_⟩
    congr 1
    omega

theorem start_mem_split_by_days (g : DateRange) (d : Int) :
    (∃ r ∈ g.split_by_days, r.start = d) ↔ g.start ≤ d ∧ d ≤ g.stop := by
  unfold DateRange.split_by_days
  constructor
  · rintro ⟨r, hr, rfl⟩
    obtain ⟨x, h1, h2, rfl⟩ := (mem_splitGo _ _ _).mp hr
    exact ⟨h1, h2⟩
  · rintro ⟨h1, h2⟩
    exact ⟨DateRange.single_day d, (mem_splitGo _ _ _).mpr ⟨d, h1, h2, rfl⟩, rfl⟩

/-! ### The detect_gaps walk -/

theorem detect_gaps_eq_flush (symbol : String) (E : DateRange) (X : List Int) :
    detect_gaps symbol E X =
      flushGaps symbol E.stop
        ((splitGo E.start E.stop).foldl (detectStep symbol X) ([], none)) := by
  unfold detect_gaps flushGaps DateRange.split_by_days
  rcases (splitGo E.start E.stop).foldl (detectStep symbol X) ([], none) with ⟨gaps, _ | gs⟩ <;> rfl

theorem foldl_detectStep_flush (symbol : String) (X : List Int) (stop : Int) :
    ∀ n current (g : List DataGap) (o : Option Int),
      (stop + 1 - current).toNat = n →
      flushGaps symbol stop
          ((splitGo current stop).foldl (detectStep symbol X) (g, o)) =
        g ++ gapsRef symbol X o current stop := by
  intro n
  induction n with
  | zero =>
      intro current g o hn
      rw [splitGo_zero current stop hn, gapsRef.eq_def, dif_neg (by omega)]
      cases o <;> simp [flushGaps]
  | succ k ih =>
      intro current g o hn
      rw [splitGo_succ current stop k hn, gapsRef.eq_def, dif_pos (by omega),
        List.foldl_cons]
      cases hX : X.contains current <;> cases o <;>
        simp only [detectStep, DateRange.single_day, hX]
      · exact ih (current + 1) g (some current) (by omega)
      · exact ih (current + 1) g (some _) (by omega)
      · exact ih (current + 1) g none (by omega)
      · rw [ih (current + 1) (g ++ [DataGap.new symbol ⟨_, current - 1⟩]) none
          (by omega)]
        simp

/-- Days covered by the gaps the walk emits from state `(o, current)` on: the
still-open run `[gap_start, current)` plus the absent days of
`[current, stop]`. -/
theorem mem_gapsRef (symbol : String) (X : List Int) (stop : Int) :
    ∀ n current (o : Option Int),
      (stop + 1 - current).toNat = n →
      (∀ gs, o = some gs → gs < current ∧ current ≤ stop + 1) →
      ∀ d, (∃ gp ∈ gapsRef symbol X o current stop,
              gp.range.start ≤ d ∧ d ≤ gp.range.stop)
        ↔ ((∃ gs, o = some gs ∧ gs ≤ d ∧ d < current)
            ∨ (current ≤ d ∧ d ≤ stop ∧ d ∉ X)) := by
  intro n
  induction n with
  | zero =>
      intro current o hn ho d
      rw [gapsRef.eq_def, dif_neg (by omega)]
      cases o with
      | none =>
          constructor
          · rintro ⟨gp, hgp, -, -⟩
            exact absurd hgp (List.not_mem_nil gp)
          · rintro (⟨gs, hgs, -, -⟩ | ⟨h1, h2, -⟩)
            · exact Option.noConfusion hgs
            · omega
      | some gs =>
          obtain ⟨h1, h2⟩ := ho gs rfl
          constructor
          · rintro ⟨gp, hgp, hd1, hd2⟩
            rw [List.mem_singleton] at hgp
            subst hgp
            simp only [DataGap.new] at hd1 hd2
            exact Or.inl ⟨gs, rfl, hd1, by omega⟩
          · rintro (⟨gs', hgs', hd1, hd2⟩ | ⟨hd1, hd2, -⟩)
            · obtain rfl : gs = gs' := by injection hgs'
              exact ⟨_, List.mem_singleton_self _, hd1, by simp [DataGap.new]; omega⟩
            · exact ⟨_, List.mem_singleton_self _, by simp [DataGap.new]; omega,
                by simp [DataGap.new]; omega⟩
  | succ k ih =>
      intro current o hn ho d
      have hcs : current ≤ stop := by omega
      rw [gapsRef.eq_def, dif_pos hcs]
      cases hX : X.contains current <;> cases o
      · -- absent day, no open gap: open one at `current`
        have hmem : current ∉ X := by simpa using hX
        rw [ih (current + 1) (some current) (by omega)
            (by rintro gs hgs; injection hgs with h; omega)]
        constructor
        · rintro (⟨gs, hgs, hd1, hd2⟩ | ⟨hd1, hd2, hd3⟩)
          · have hgseq : current = gs := by injection hgs
            have hd : d = current := by omega
            exact Or.inr ⟨by omega, by omega, by rw [hd]; exact hmem⟩
          · exact Or.inr ⟨by omega, hd2, hd3⟩
        · rintro (⟨gs, hgs, -, -⟩ | ⟨hd1, hd2, hd3⟩)
          · exact Option.noConfusion hgs
          · rcases eq_or_lt_of_le hd1 with h | h
            · exact Or.inl ⟨current, rfl, by omega, by omega⟩
            · exact Or.inr ⟨by omega, hd2, hd3⟩
      · -- absent day, gap already open: it stays open
        rename_i gs
        obtain ⟨h1, h2⟩ := ho gs rfl
        have hmem : current ∉ X := by simpa using hX
        rw [ih (current + 1) (some gs) (by omega)
            (by rintro gs' hgs'; injection hgs' with h; omega)]
        constructor
        · rintro (⟨gs', hgs', hd1, hd2⟩ | ⟨hd1, hd2, hd3⟩)
          · obtain rfl : gs = gs' := by injection hgs'
            rcases lt_or_ge d current with h | h
            · exact Or.inl ⟨gs, rfl, hd1, h⟩
            · have : d = current := by omega
              subst this
              exact Or.inr ⟨le_refl d, by omega, hmem⟩
          · exact Or.inr ⟨by omega, hd2, hd3⟩
        · rintro (⟨gs', hgs', hd1, hd2⟩ | ⟨hd1, hd2, hd3⟩)
          · have hgseq : gs = gs' := by injection hgs'
            exact Or.inl ⟨gs, rfl, by omega, by omega⟩
          · rcases lt_or_ge d (current + 1) with h | h
            · exact Or.inl ⟨gs, rfl, by omega, h⟩
            · exact Or.inr ⟨h, hd2, hd3⟩
      · -- present day, no open gap: nothing changes
        have hmem : current ∈ X := by simpa using hX
        rw [ih (current + 1) none (by omega) (by rintro gs hgs; exact Option.noConfusion hgs)]
        constructor
        · rintro (⟨gs, hgs, -, -⟩ | ⟨hd1, hd2, hd3⟩)
          · exact Option.noConfusion hgs
          · exact Or.inr ⟨by omega, hd2, hd3⟩
        · rintro (⟨gs, hgs, -, -⟩ | ⟨hd1, hd2, hd3⟩)
          · exact Option.noConfusion hgs
          · have : d ≠ current := fun h => hd3 (h ▸ hmem)
            exact Or.inr ⟨by omega, hd2, hd3⟩
      · -- present day closes the open gap `[gs, current - 1]`
        rename_i gs
        obtain ⟨h1, h2⟩ := ho gs rfl
        have hmem : current ∈ X := by simpa using hX
        have hrest := ih (current + 1) none (by omega)
          (by rintro gs' hgs'; exact Option.noConfusion hgs') d
        constructor
        · rintro ⟨gp, hgp, hd1, hd2⟩
          rcases List.mem_cons.mp hgp with rfl | hgp'
          · simp only [DataGap.new] at hd1 hd2
            exact Or.inl ⟨gs, rfl, hd1, by omega⟩
          · rcases hrest.mp ⟨gp, hgp', hd1, hd2⟩ with ⟨gs', hgs', -, -⟩ | ⟨hr1, hr2, hr3⟩
            · exact Option.noConfusion hgs'
            · exact Or.inr ⟨by omega, hr2, hr3⟩
        · rintro (⟨gs', hgs', hd1, hd2⟩ | ⟨hd1, hd2, hd3⟩)
          · obtain rfl : gs = gs' := by injection hgs'
            exact ⟨_, List.mem_cons_self _ _, by simp [DataGap.new]; omega,
              by simp [DataGap.new]; omega⟩
          · have : d ≠ current := fun h => hd3 (h ▸ hmem)
            obtain ⟨gp, hgp, hp1, hp2⟩ := hrest.mpr (Or.inr ⟨by omega, hd2, hd3⟩)
            exact ⟨gp, List.mem_cons_of_mem _ hgp, hp1, hp2⟩

/-- Every gap the walk emits is non-empty, lies inside `[lb, stop]`, and is
bounded by a present day or the range boundary on both sides. -/
theorem gapsRef_bounds (symbol : String) (X : List Int) (stop lb : Int) :
    ∀ n current (o : Option Int),
      (stop + 1 - current).toNat = n →
      lb ≤ current →
      (∀ gs, o = some gs →
        lb ≤ gs ∧ gs < current ∧ current ≤ stop + 1 ∧ (gs = lb ∨ (gs - 1) ∈ X)) →
      (o = none → current = lb ∨ (current - 1) ∈ X) →
      ∀ gp ∈ gapsRef symbol X o current stop,
        gp.symbol = symbol
        ∧ gp.range.start ≤ gp.range.stop
        ∧ lb ≤ gp.range.start
        ∧ gp.range.stop ≤ stop
        ∧ (gp.range.start = lb ∨ (gp.range.start - 1) ∈ X)
        ∧ (gp.range.stop = stop ∨ (gp.range.stop + 1) ∈ X) := by
  intro n
  induction n with
  | zero =>
      intro current o hn hlb hsome hnone gp hgp
      rw [gapsRef.eq_def, dif_neg (by omega)] at hgp
      cases o with
      | none => exact absurd hgp (List.not_mem_nil gp)
      | some gs =>
          obtain ⟨i1, i2, i3, i4⟩ := hsome gs rfl
          rw [List.mem_singleton] at hgp
          subst hgp
          refine ⟨rfl, by dsimp [DataGap.new]; omega, by dsimp [DataGap.new]; omega,
            by dsimp [DataGap.new]; omega, ?_, Or.inl rfl⟩
          rcases i4 with h | h
          · exact Or.inl h
          · exact Or.inr h
  | succ k ih =>
      intro current o hn hlb hsome hnone gp hgp
      have hcs : current ≤ stop := by omega
      rw [gapsRef.eq_def, dif_pos hcs] at hgp
      cases hX : X.contains current <;> cases o <;> rw [hX] at hgp
      · -- absent day, no open gap: open one at `current`
        exact ih (current + 1) (some current) (by omega) (by omega)
          (by rintro gs hgs
              have : current = gs := by injection hgs
              subst this
              exact ⟨hlb, by omega, by omega, hnone rfl⟩)
          (by rintro ⟨⟩) gp hgp
      · -- absent day, gap stays open
        rename_i gs
        obtain ⟨i1, i2, i3, i4⟩ := hsome gs rfl
        exact ih (current + 1) (some gs) (by omega) (by omega)
          (by rintro gs' hgs'
              have : gs = gs' := by injection hgs'
              subst this
              exact ⟨i1, by omega, by omega, i4⟩)
          (by rintro ⟨⟩) gp hgp
      · -- present day, no open gap
        have hmem : current ∈ X := by simpa using hX
        exact ih (current + 1) none (by omega) (by omega)
          (by rintro gs ⟨⟩)
          (fun _ => Or.inr (by simpa using hmem)) gp hgp
      · -- present day closes the open gap
        rename_i gs
        obtain ⟨i1, i2, i3, i4⟩ := hsome gs rfl
        have hmem : current ∈ X := by simpa using hX
        rcases List.mem_cons.mp hgp with rfl | hgp'
        · refine ⟨rfl, by dsimp [DataGap.new]; omega, by dsimp [DataGap.new]; omega,
            by dsimp [DataGap.new]; omega, ?_, ?_⟩
          · rcases i4 with h | h
            · exact Or.inl h
            · exact Or.inr h
          · refine Or.inr ?_
            dsimp [DataGap.new]
            simpa using hmem
        · exact ih (current + 1) none (by omega) (by omega)
            (by rintro gs' ⟨⟩)
            (fun _ => Or.inr (by simpa using hmem)) gp hgp'

/-- The walk emits gaps in strictly chronological order, each starting at or
after the open-gap start (resp. the current day). -/
theorem gapsRef_sorted (symbol : String) (X : List Int) (stop : Int) :
    ∀ n current (o : Option Int),
      (stop + 1 - current).toNat = n →
      (∀ gs, o = some gs → gs < current) →
      (∀ gp ∈ gapsRef symbol X o current stop, o.getD current ≤ gp.range.start)
      ∧ List.Pairwise (fun g1 g2 => g1.range.stop < g2.range.start)
          (gapsRef symbol X o current stop) := by
  intro n
  induction n with
  | zero =>
      intro current o hn hsome
      rw [gapsRef.eq_def, dif_neg (by omega)]
      cases o with
      | none => exact ⟨by rintro gp ⟨⟩, List.Pairwise.nil⟩
      | some gs =>
          refine ⟨?_, List.pairwise_singleton _ _⟩
          rintro gp hgp
          rw [List.mem_singleton] at hgp
          subst hgp
          exact le_refl _
  | succ k ih =>
      intro current o hn hsome
      have hcs : current ≤ stop := by omega
      rw [gapsRef.eq_def, dif_pos hcs]
      cases hX : X.contains current <;> cases o
      · obtain ⟨hbd, hpw⟩ := ih (current + 1) (some current) (by omega)
          (by rintro gs hgs; injection hgs with h; omega)
        exact ⟨fun gp hgp => by simpa using hbd gp hgp, hpw⟩
      · rename_i gs
        have hgc := hsome gs rfl
        obtain ⟨hbd, hpw⟩ := ih (current + 1) (some gs) (by omega)
          (by rintro gs' hgs'; injection hgs' with h; omega)
        exact ⟨fun gp hgp => by simpa using hbd gp hgp, hpw⟩
      · obtain ⟨hbd, hpw⟩ := ih (current + 1) none (by omega) (by rintro gs ⟨⟩)
        refine ⟨fun gp hgp => ?_, hpw⟩
        have := hbd gp hgp
        simp only [Option.getD] at this ⊢
        omega
      · rename_i gs
        have hgc := hsome gs rfl
        obtain ⟨hbd, hpw⟩ := ih (current + 1) none (by omega) (by rintro gs' ⟨⟩)
        constructor
        · rintro gp hgp
          rcases List.mem_cons.mp hgp with rfl | hgp'
          · exact le_refl _
          · have := hbd gp hgp'
            simp only [Option.getD] at this ⊢
            omega
        · refine List.Pairwise.cons ?_ hpw
          intro gp hgp
          have := hbd gp hgp
          simp only [Option.getD] at this
          show (current - 1 : Int) < gp.range.start
          omega

/-! ### Claim theorem: C5 -/

/-- C5: for every symbol, expected range `E`, and existing-dates set `X`, the
union of the days of the returned `DataGap`s equals the days of `E` not in
`X`; each returned gap is non-empty and maximal (its adjacent days are in `X`
or outside `E`); and the gaps are returned in chronological order. -/
theorem detect_gaps_correct (symbol : String) (E : DateRange) (X : List Int) :
    (∀ d : Int, (∃ gp ∈ detect_gaps symbol E X, gp.range.contains d = true)
        ↔ (E.contains d = true ∧ d ∉ X))
    ∧ (∀ gp ∈ detect_gaps symbol E X,
        gp.range.start ≤ gp.range.stop
        ∧ (gp.range.start - 1 < E.start ∨ (gp.range.start - 1) ∈ X)
        ∧ (E.stop < gp.range.stop + 1 ∨ (gp.range.stop + 1) ∈ X))
    ∧ List.Pairwise (fun g1 g2 => g1.range.stop < g2.range.start)
        (detect_gaps symbol E X) := by
  have hdg : detect_gaps symbol E X = gapsRef symbol X none E.start E.stop := by
    rw [detect_gaps_eq_flush,
      foldl_detectStep_flush symbol X E.stop ((E.stop + 1 - E.start).toNat)
        E.start [] none rfl]
    simp
  refine ⟨?_, ?_, ?_⟩
  · intro d
    rw [hdg]
    have hm := mem_gapsRef symbol X E.stop ((E.stop + 1 - E.start).toNat)
      E.start none rfl (by rintro gs ⟨⟩) d
    simp only [DateRange.contains, Bool.and_eq_true, decide_eq_true_eq, ge_iff_le]
    rw [show (∃ gp ∈ gapsRef symbol X none E.start E.stop,
        gp.range.start ≤ d ∧ d ≤ gp.range.stop)
      ↔ ((∃ gs, (none : Option Int) = some gs ∧ gs ≤ d ∧ d < E.start)
          ∨ (E.start ≤ d ∧ d ≤ E.stop ∧ d ∉ X)) from hm]
    constructor
    · rintro (⟨gs, hgs, -, -⟩ | ⟨h1, h2, h3⟩)
      · exact Option.noConfusion hgs
      · exact ⟨⟨h1, h2⟩, h3⟩
    · rintro ⟨⟨h1, h2⟩, h3⟩
      exact Or.inr ⟨h1, h2, h3⟩
  · intro gp hgp
    rw [hdg] at hgp
    have := gapsRef_bounds symbol X E.stop E.start ((E.stop + 1 - E.start).toNat)
      E.start none rfl (le_refl _) (by rintro gs ⟨⟩) (fun _ => Or.inl rfl) gp hgp
    obtain ⟨-, hv, hlo, hhi, hleft, hright⟩ := this
    refine ⟨hv, ?_, ?_⟩
    · rcases hleft with h | h
      · exact Or.inl (by omega)
      · exact Or.inr h
    · rcases hright with h | h
      · exact Or.inl (by omega)
      · exact Or.inr h
  · rw [hdg]
    exact (gapsRef_sorted symbol X E.stop ((E.stop + 1 - E.start).toNat)
      E.start none rfl (by rintro gs ⟨⟩)).2

/-- Witness for C5 at `E = [0, 5]`, `X = {0, 3}`: day 4 is covered by a
returned gap, and the gap `[1, 2]` is reported maximal. -/
theorem detect_gaps_correct_witness :
    (∃ gp ∈ detect_gaps "NQ" ⟨0, 5⟩ [0, 3], gp.range.contains 4 = true)
    ∧ ((DataGap.new "NQ" ⟨1, 2⟩).range.start ≤ (DataGap.new "NQ" ⟨1, 2⟩).range.stop
        ∧ ((DataGap.new "NQ" ⟨1, 2⟩).range.start - 1 < (0 : Int)
            ∨ ((DataGap.new "NQ" ⟨1, 2⟩).range.start - 1) ∈ [(0 : Int), 3])
        ∧ ((5 : Int) < (DataGap.new "NQ" ⟨1, 2⟩).range.stop + 1
            ∨ ((DataGap.new "NQ" ⟨1, 2⟩).range.stop + 1) ∈ [(0 : Int), 3])) :=
  ⟨((detect_gaps_correct "NQ" ⟨0, 5⟩ [0, 3]).1 4).mpr (by decide),
   (detect_gaps_correct "NQ" ⟨0, 5⟩ [0, 3]).2.1 (DataGap.new "NQ" ⟨1, 2⟩) (by decide)⟩

/-! ### Claim theorems: C9 and C10 -/

/-- C9: for all days `s ≤ e`, `DateRange::new(s, e)` succeeds and
`split_by_days()` on the result yields exactly `e - s + 1` single-day ranges in
chronological order, the first starting at `s` and the last starting at `e`;
`DateRange::new` fails with `StartAfterEnd` exactly when `s > e`. -/
theorem split_round_trip (s e : Int) :
    (s ≤ e →
      DateRange.new s e = .ok ⟨s, e⟩
      ∧ (DateRange.split_by_days ⟨s, e⟩).length = (e - s + 1).toNat
      ∧ (∀ r ∈ DateRange.split_by_days ⟨s, e⟩, r.start = r.stop)
      ∧ List.Chain' (fun a b => a.start < b.start) (DateRange.split_by_days ⟨s, e⟩)
      ∧ (DateRange.split_by_days ⟨s, e⟩).head?.map DateRange.start = some s
      ∧ (DateRange.split_by_days ⟨s, e⟩).getLast?.map DateRange.start = some e)
    ∧ (DateRange.new s e = .error .StartAfterEnd ↔ e < s) := by
  constructor
  · intro hse
    have hlen : (DateRange.split_by_days ⟨s, e⟩).length = (e - s + 1).toNat := by
      unfold DateRange.split_by_days
      rw [length_splitGo]
      dsimp only
      omega
    have hpos : 0 < (DateRange.split_by_days ⟨s, e⟩).length := by omega
    refine ⟨by simp [DateRange.new, not_lt.mpr hse], hlen, ?_, ?_, ?_, ?_⟩
    · intro r hr
      obtain ⟨d, _, _, rfl⟩ := (mem_splitGo _ _ _).mp hr
      rfl
    · rw [List.chain'_iff_get]
      intro i hi
      have h1 : i < (DateRange.split_by_days ⟨s, e⟩).length := by omega
      have h2 : i + 1 < (DateRange.split_by_days ⟨s, e⟩).length := by omega
      simp only [List.get_eq_getElem]
      unfold DateRange.split_by_days at h1 h2 ⊢
      rw [getElem_splitGo _ _ _ h1, getElem_splitGo _ _ _ h2]
      simp only [DateRange.single_day]
      push_cast
      omega
    · rw [List.head?_eq_getElem?, List.getElem?_eq_getElem hpos]
      unfold DateRange.split_by_days at hpos ⊢
      rw [getElem_splitGo _ _ _ hpos]
      simp [DateRange.single_day]
    · have hlast : (DateRange.split_by_days ⟨s, e⟩).length - 1 <
          (DateRange.split_by_days ⟨s, e⟩).length := by omega
      rw [List.getLast?_eq_getElem?, List.getElem?_eq_getElem hlast]
      unfold DateRange.split_by_days at hlast ⊢
      rw [getElem_splitGo _ _ _ hlast]
      simp only [DateRange.single_day, Option.map_some']
      congr 1
      rw [length_splitGo]
      omega
  · unfold DateRange.new
    constructor
    · intro h
      by_contra hc
      rw [if_neg (by omega)] at h
      exact Except.noConfusion h
    · intro h
      rw [if_pos (by omega)]

/-- Witness for C9 at `s = 20089`, `e = 20091` (2025-01-01 … 2025-01-03). -/
theorem split_round_trip_witness :
    DateRange.new 20089 20091 = .ok ⟨20089, 20091⟩
    ∧ (DateRange.split_by_days ⟨20089, 20091⟩).length = ((20091 : Int) - 20089 + 1).toNat
    ∧ (∀ r ∈ DateRange.split_by_days ⟨20089, 20091⟩, r.start = r.stop)
    ∧ List.Chain' (fun a b => a.start < b.start) (DateRange.split_by_days ⟨20089, 20091⟩)
    ∧ (DateRange.split_by_days ⟨20089, 20091⟩).head?.map DateRange.start = some 20089
    ∧ (DateRange.split_by_days ⟨20089, 20091⟩).getLast?.map DateRange.start = some 20091 :=
  (split_round_trip 20089 20091).1 (by decide)

/-- C10: `JobStatus::from_str(s.as_str()) = Some(s)` for every status, and
hence the Redis repository's `parse_status` recovers the exact status that
`state_field_values` serialized. -/
theorem status_round_trip :
    ∀ s : JobStatus,
      JobStatus.from_str s.as_str = some s ∧ parse_status s.as_str = .ok s := by
  intro s
  cases s <;> exact ⟨rfl, rfl⟩

/-! ### Claim theorem: C4 (fencing protocol) -/

/-- C4: every fenced mutation (`update_cursor`, `update_status`, `heartbeat`,
`save_error`) on a job key with caller instance id `I` fails `NotFound` when
no record exists; fails `StaleInstance` when the stored `job_instance_id`
differs from `I` (the repository model is pure, so an error result leaves the
store exactly as it was); and otherwise applies exactly its mutation and
persists the updated record. -/
theorem fencing_protocol (jk I : String) (c : Int) (st' : JobStatus)
    (ts : Int) (msg : String) :
    (∀ s : StoreLog, s.record = none →
      update_cursor s jk I c = .error (.NotFound jk)
      ∧ update_status s jk I st' = .error (.NotFound jk)
      ∧ heartbeat s jk I ts = .error (.NotFound jk)
      ∧ save_error s jk I msg = .error (.NotFound jk))
    ∧ (∀ (s : StoreLog) (state : JobState), s.record = some state →
        state.job_instance_id ≠ I →
      update_cursor s jk I c = .error (.StaleInstance jk)
      ∧ update_status s jk I st' = .error (.StaleInstance jk)
      ∧ heartbeat s jk I ts = .error (.StaleInstance jk)
      ∧ save_error s jk I msg = .error (.StaleInstance jk))
    ∧ (∀ (s : StoreLog) (state : JobState), s.record = some state →
        state.job_instance_id = I →
      update_cursor s jk I c = .ok (upsert s { state with cursor := c })
      ∧ update_status s jk I st' = .ok (upsert s { state with status := st' })
      ∧ heartbeat s jk I ts = .ok (upsert s { state with heartbeat_at := ts })
      ∧ save_error s jk I msg = .ok (upsert s { state with last_error_type := some msg })) := by
  refine ⟨?_, ?_, ?_⟩
  · intro s hrec
    refine ⟨?_, ?_, ?_, ?_⟩ <;>
      simp [update_cursor, update_status, heartbeat, save_error, update_with, hrec]
  · intro s state hrec hne
    refine ⟨?_, ?_, ?_, ?_⟩ <;>
      simp [update_cursor, update_status, heartbeat, save_error, update_with, hrec, hne]
  · intro s state hrec heq
    refine ⟨?_, ?_, ?_, ?_⟩ <;>
      simp [update_cursor, update_status, heartbeat, save_error, update_with, hrec, heq]

/-- Witness for C4 with key `"k"`, caller id `"i"`, a store holding instance
`"other"` (stale), one holding `"i"` (current), and an empty store. -/
theorem fencing_protocol_witness :
    (update_cursor ⟨none, []⟩ "k" "i" 7 = .error (.NotFound "k")
      ∧ update_status ⟨none, []⟩ "k" "i" .Failed = .error (.NotFound "k")
      ∧ heartbeat ⟨none, []⟩ "k" "i" 5 = .error (.NotFound "k")
      ∧ save_error ⟨none, []⟩ "k" "i" "m" = .error (.NotFound "k"))
    ∧ (update_cursor ⟨some (JobState.new "other" .Running 1 2 3), []⟩ "k" "i" 7
          = .error (.StaleInstance "k")
      ∧ update_status ⟨some (JobState.new "other" .Running 1 2 3), []⟩ "k" "i" .Failed
          = .error (.StaleInstance "k")
      ∧ heartbeat ⟨some (JobState.new "other" .Running 1 2 3), []⟩ "k" "i" 5
          = .error (.StaleInstance "k")
      ∧ save_error ⟨some (JobState.new "other" .Running 1 2 3), []⟩ "k" "i" "m"
          = .error (.StaleInstance "k"))
    ∧ (update_cursor ⟨some (JobState.new "i" .Running 1 2 3), []⟩ "k" "i" 7
          = .ok (upsert ⟨some (JobState.new "i" .Running 1 2 3), []⟩
              { JobState.new "i" .Running 1 2 3 with cursor := 7 })
      ∧ update_status ⟨some (JobState.new "i" .Running 1 2 3), []⟩ "k" "i" .Failed
          = .ok (upsert ⟨some (JobState.new "i" .Running 1 2 3), []⟩
              { JobState.new "i" .Running 1 2 3 with status := .Failed })
      ∧ heartbeat ⟨some (JobState.new "i" .Running 1 2 3), []⟩ "k" "i" 5
          = .ok (upsert ⟨some (JobState.new "i" .Running 1 2 3), []⟩
              { JobState.new "i" .Running 1 2 3 with heartbeat_at := 5 })
      ∧ save_error ⟨some (JobState.new "i" .Running 1 2 3), []⟩ "k" "i" "m"
          = .ok (upsert ⟨some (JobState.new "i" .Running 1 2 3), []⟩
              { JobState.new "i" .Running 1 2 3 with last_error_type := some "m" })) :=
  ⟨(fencing_protocol "k" "i" 7 .Failed 5 "m").1 ⟨none, []⟩ rfl,
   (fencing_protocol "k" "i" 7 .Failed 5 "m").2.1 _ (JobState.new "other" .Running 1 2 3)
     rfl (by decide),
   (fencing_protocol "k" "i" 7 .Failed 5 "m").2.2 _ (JobState.new "i" .Running 1 2 3)
     rfl rfl⟩

/-! ### Claim theorems: C8 and C1 (lease acquisition) -/

/-- C8: a `backfill_range` invocation that finds the stored job `Running` with
a heartbeat at most `HEARTBEAT_TIMEOUT` (300 s) old fails with
`JobAlreadyRunning(job_key)` and returns the store untouched — no write
happens, so the stored record and its `job_instance_id` are unchanged. -/
theorem active_lease_rejected (o : Oracles) (s : StoreLog) (st : JobState)
    (now : Int) (newId symbol : String) (range : DateRange)
    (hrec : s.record = some st) (hrun : st.status = .Running)
    (hfresh : now - st.heartbeat_at ≤ HEARTBEAT_TIMEOUT) :
    backfill_range o now newId symbol range s =
      (.error (.JobAlreadyRunning (job_key symbol range.start)), s) := by
  have hinit : initialize_job s now newId symbol range =
      (.error (.JobAlreadyRunning (job_key symbol range.start)), s) := by
    unfold initialize_job
    rw [hrec]
    dsimp only
    rw [if_pos hrun, if_pos hfresh]
  unfold backfill_range
  rw [hinit]

/-- Witness for C8: stored state `Running` with heartbeat at `now`. -/
theorem active_lease_rejected_witness :
    backfill_range
        ⟨fun _ _ => .ok [], fun _ _ => .ok [], fun _ => .ok (), .ok ()⟩
        1000 "new" "NQ" ⟨20089, 20089⟩
        ⟨some (JobState.new "running" .Running 0 0 1000), []⟩ =
      (.error (.JobAlreadyRunning (job_key "NQ" 20089)),
        ⟨some (JobState.new "running" .Running 0 0 1000), []⟩) :=
  active_lease_rejected _ _ (JobState.new "running" .Running 0 0 1000)
    1000 "new" "NQ" ⟨20089, 20089⟩ rfl rfl (by decide)

/-- C1 (amended): when the stored `JobState` has terminal status
(`Completed`/`Failed`), `initialize_job` falls through to the same path as an
absent record: it mints a new `job_instance_id` and sets status `Running`, but
it does **not** keep the stored cursor — the upserted record is the fresh one
with `cursor = start_of_day_ts(range.start) - 1`. -/
theorem terminal_status_reinitializes (s : StoreLog) (st : JobState)
    (now : Int) (newId symbol : String) (range : DateRange)
    (hrec : s.record = some st)
    (hterm : st.status = .Completed ∨ st.status = .Failed) :
    initialize_job s now newId symbol range =
      (.ok ⟨job_key symbol range.start, freshJobState now newId range⟩,
        upsert s (freshJobState now newId range))
    ∧ (freshJobState now newId range).job_instance_id = newId
    ∧ (freshJobState now newId range).status = .Running
    ∧ (freshJobState now newId range).cursor = start_of_day_ts range.start - 1 := by
  have hnr : ¬ st.status = JobStatus.Running := by
    rcases hterm with h | h <;> rw [h] <;> exact fun hc => JobStatus.noConfusion hc
  refine ⟨?_, rfl, rfl, rfl⟩
  unfold initialize_job
  rw [hrec]
  dsimp only
  rw [if_neg hnr]

/-- Witness for C1's amended statement: a `Completed` record with cursor 42 is
replaced by a fresh record with cursor `start_of_day_ts 0 - 1 = -1`. -/
theorem terminal_status_reinitializes_witness :
    initialize_job ⟨some (JobState.new "old" .Completed 42 100 0), []⟩ 0 "new" "NQ" ⟨0, 0⟩ =
      (.ok ⟨job_key "NQ" 0, freshJobState 0 "new" ⟨0, 0⟩⟩,
        upsert ⟨some (JobState.new "old" .Completed 42 100 0), []⟩ (freshJobState 0 "new" ⟨0, 0⟩))
    ∧ (freshJobState 0 "new" ⟨0, 0⟩).job_instance_id = "new"
    ∧ (freshJobState 0 "new" ⟨0, 0⟩).status = .Running
    ∧ (freshJobState 0 "new" ⟨0, 0⟩).cursor = start_of_day_ts 0 - 1 :=
  terminal_status_reinitializes _ (JobState.new "old" .Completed 42 100 0)
    0 "new" "NQ" ⟨0, 0⟩ rfl (Or.inl rfl)

/-- Counterexample to C1 as stated: with stored status `Completed` and stored
cursor 42, the record upserted by lease re-acquisition does not keep cursor
42 (it holds `start_of_day_ts 0 - 1 = -1`). -/
theorem terminal_keeps_cursor_counterexample :
    ¬ ((initialize_job ⟨some (JobState.new "old" .Completed 42 100 0), []⟩
          0 "new" "NQ" ⟨0, 0⟩).2.record.map JobState.cursor = some 42) := by
  decide

/-! ### Planning (C6) -/

theorem mem_insertSorted (d : Int) :
    ∀ (l : List Int) (y : Int), y ∈ insertSorted d l ↔ y = d ∨ y ∈ l := by
  intro l
  induction l with
  | nil => intro y; simp [insertSorted]
  | cons x xs ih =>
      intro y
      unfold insertSorted
      by_cases h1 : d < x
      · rw [if_pos h1]
        simp only [List.mem_cons]
      · rw [if_neg h1]
        by_cases h2 : d = x
        · rw [if_pos h2]
          subst h2
          simp only [List.mem_cons]
          tauto
        · rw [if_neg h2]
          simp only [List.mem_cons, ih y]
          tauto

theorem pairwise_insertSorted (d : Int) :
    ∀ l : List Int, l.Pairwise (· < ·) → (insertSorted d l).Pairwise (· < ·) := by
  intro l
  induction l with
  | nil => intro _; simp [insertSorted]
  | cons x xs ih =>
      intro hp
      rw [List.pairwise_cons] at hp
      obtain ⟨hx, hxs⟩ := hp
      unfold insertSorted
      by_cases h1 : d < x
      · rw [if_pos h1]
        refine List.Pairwise.cons ?_ (List.Pairwise.cons hx hxs)
        intro y hy
        rcases List.mem_cons.mp hy with rfl | hy'
        · exact h1
        · exact lt_trans h1 (hx y hy')
      · rw [if_neg h1]
        by_cases h2 : d = x
        · rw [if_pos h2]
          exact List.Pairwise.cons hx hxs
        · rw [if_neg h2]
          refine List.Pairwise.cons ?_ (ih hxs)
          intro y hy
          rcases (mem_insertSorted d xs y).mp hy with rfl | hy'
          · omega
          · exact hx y hy'

/-- Membership after folding one gap's day list through the clipped insert. -/
theorem foldl_clip_mem (eff rend : Int) :
    ∀ (ds : List DateRange) (acc : List Int) (y : Int),
      y ∈ ds.foldl (fun days day_range =>
          let date := day_range.start
          if date < eff ∨ date > rend then days else insertSorted date days) acc
      ↔ y ∈ acc ∨ ∃ r ∈ ds, r.start = y ∧ eff ≤ y ∧ y ≤ rend := by
  intro ds
  induction ds with
  | nil => intro acc y; simp
  | cons r ds ih =>
      intro acc y
      rw [List.foldl_cons]
      by_cases hr : r.start < eff ∨ r.start > rend
      · rw [show (let date := r.start;
            if date < eff ∨ date > rend then acc else insertSorted date acc) = acc
            from by simp [hr]]
        rw [ih acc y]
        constructor
        · rintro (h | ⟨q, hq, h1, h2, h3⟩)
          · exact Or.inl h
          · exact Or.inr ⟨q, List.mem_cons_of_mem _ hq, h1, h2, h3⟩
        · rintro (h | ⟨q, hq, h1, h2, h3⟩)
          · exact Or.inl h
          · rcases List.mem_cons.mp hq with rfl | hq'
            · omega
            · exact Or.inr ⟨q, hq', h1, h2, h3⟩
      · rw [show (let date := r.start;
            if date < eff ∨ date > rend then acc else insertSorted date acc) =
            insertSorted r.start acc from by simp [hr]]
        rw [ih _ y, mem_insertSorted]
        constructor
        · rintro ((rfl | h) | ⟨q, hq, h1, h2, h3⟩)
          · exact Or.inr ⟨r, List.mem_cons_self _ _, rfl, by omega, by omega⟩
          · exact Or.inl h
          · exact Or.inr ⟨q, List.mem_cons_of_mem _ hq, h1, h2, h3⟩
        · rintro (h | ⟨q, hq, h1, h2, h3⟩)
          · exact Or.inl (Or.inr h)
          · rcases List.mem_cons.mp hq with rfl | hq'
            · exact Or.inl (Or.inl h1.symm)
            · exact Or.inr ⟨q, hq', h1, h2, h3⟩

theorem foldl_clip_pairwise (eff rend : Int) :
    ∀ (ds : List DateRange) (acc : List Int), acc.Pairwise (· < ·) →
      (ds.foldl (fun days day_range =>
          let date := day_range.start
          if date < eff ∨ date > rend then days else insertSorted date days) acc).Pairwise (· < ·) := by
  intro ds
  induction ds with
  | nil => intro acc h; exact h
  | cons r ds ih =>
      intro acc hacc
      rw [List.foldl_cons]
      by_cases hr : r.start < eff ∨ r.start > rend
      · rw [show (let date := r.start;
            if date < eff ∨ date > rend then acc else insertSorted date acc) = acc
            from by simp [hr]]
        exact ih acc hacc
      · rw [show (let date := r.start;
            if date < eff ∨ date > rend then acc else insertSorted date acc) =
            insertSorted r.start acc from by simp [hr]]
        exact ih _ (pairwise_insertSorted _ _ hacc)

theorem foldl_gaps_mem (eff rend : Int) :
    ∀ (gaps : List DateRange) (acc : List Int) (y : Int),
      y ∈ gaps.foldl (fun days gap =>
          gap.split_by_days.foldl (fun days day_range =>
            let date := day_range.start
            if date < eff ∨ date > rend then days
            else insertSorted date days) days) acc
      ↔ y ∈ acc ∨ ((∃ g ∈ gaps, g.start ≤ y ∧ y ≤ g.stop) ∧ eff ≤ y ∧ y ≤ rend) := by
  intro gaps
  induction gaps with
  | nil => intro acc y; simp
  | cons g gaps ih =>
      intro acc y
      rw [List.foldl_cons, ih, foldl_clip_mem]
      constructor
      · rintro ((h | ⟨r, hr, rfl, h1, h2⟩) | ⟨⟨q, hq, hq1, hq2⟩, h1, h2⟩)
        · exact Or.inl h
        · have := (start_mem_split_by_days g _).mp ⟨r, hr, rfl⟩
          exact Or.inr ⟨⟨g, List.mem_cons_self _ _, this.1, this.2⟩, h1, h2⟩
        · exact Or.inr ⟨⟨q, List.mem_cons_of_mem _ hq, hq1, hq2⟩, h1, h2⟩
      · rintro (h | ⟨⟨q, hq, hq1, hq2⟩, h1, h2⟩)
        · exact Or.inl (Or.inl h)
        · rcases List.mem_cons.mp hq with rfl | hq'
          · obtain ⟨r, hr, hry⟩ := (start_mem_split_by_days q y).mpr ⟨hq1, hq2⟩
            exact Or.inl (Or.inr ⟨r, hr, hry, h1, h2⟩)
          · exact Or.inr ⟨⟨q, hq', hq1, hq2⟩, h1, h2⟩

theorem foldl_gaps_pairwise (eff rend : Int) :
    ∀ (gaps : List DateRange) (acc : List Int), acc.Pairwise (· < ·) →
      (gaps.foldl (fun days gap =>
          gap.split_by_days.foldl (fun days day_range =>
            let date := day_range.start
            if date < eff ∨ date > rend then days
            else insertSorted date days) days) acc).Pairwise (· < ·) := by
  intro gaps
  induction gaps with
  | nil => intro acc h; exact h
  | cons g gaps ih =>
      intro acc hacc
      rw [List.foldl_cons]
      exact ih _ (foldl_clip_pairwise eff rend _ acc hacc)

theorem plan_days_mem (eff rend : Int) (gaps : List DateRange) (y : Int) :
    y ∈ plan_days_to_process eff rend gaps
      ↔ ((eff ≤ rend ∧ y = eff)
          ∨ ((∃ g ∈ gaps, g.start ≤ y ∧ y ≤ g.stop) ∧ eff ≤ y ∧ y ≤ rend)) := by
  unfold plan_days_to_process
  rw [foldl_gaps_mem]
  have hbase : (y ∈ if eff ≤ rend then insertSorted eff [] else [])
      ↔ (eff ≤ rend ∧ y = eff) := by
    by_cases h : eff ≤ rend
    · rw [if_pos h]
      simp [insertSorted, h]
    · rw [if_neg h]
      simp [h]
  rw [hbase]

theorem plan_days_pairwise (eff rend : Int) (gaps : List DateRange) :
    (plan_days_to_process eff rend gaps).Pairwise (· < ·) := by
  unfold plan_days_to_process
  refine foldl_gaps_pairwise eff rend gaps _ ?_
  by_cases h : eff ≤ rend
  · rw [if_pos h]
    exact List.pairwise_singleton _ _
  · rw [if_neg h]
    exact List.Pairwise.nil

/-! ### Claim theorem: C6 -/

/-- C6: the effective start day is `range.start` when the stored cursor is
below `start_of_day_ts(range.start)` and otherwise the calendar day containing
the cursor (the unique `d` with
`start_of_day_ts d ≤ cursor < start_of_day_ts (d+1)`); whenever planning runs
(`effective_start ≤ range.end`), the planned-days list is strictly ascending
(hence duplicate-free), contains exactly the union of `{effective_start}` with
the days of the detected gaps clipped to `[effective_start, range.end]`, and
always contains `effective_start`. -/
theorem planning_correct (range_start cursor range_end : Int)
    (gaps : List DateRange) :
    (cursor < start_of_day_ts range_start →
      resume_start range_start cursor = range_start)
    ∧ (start_of_day_ts range_start ≤ cursor →
        start_of_day_ts (resume_start range_start cursor) ≤ cursor
        ∧ cursor < start_of_day_ts (resume_start range_start cursor + 1))
    ∧ (resume_start range_start cursor ≤ range_end →
        (plan_days_to_process (resume_start range_start cursor) range_end gaps).Pairwise (· < ·)
        ∧ (∀ d, d ∈ plan_days_to_process (resume_start range_start cursor) range_end gaps
            ↔ (d = resume_start range_start cursor
                ∨ ((∃ g ∈ gaps, g.start ≤ d ∧ d ≤ g.stop)
                    ∧ resume_start range_start cursor ≤ d ∧ d ≤ range_end)))
        ∧ resume_start range_start cursor ∈
            plan_days_to_process (resume_start range_start cursor) range_end gaps) := by
  refine ⟨?_, ?_, ?_⟩
  · intro h
    unfold resume_start
    rw [if_pos h]
  · intro h
    unfold resume_start
    rw [if_neg (by omega)]
    unfold timestamp_to_date start_of_day_ts millisPerDay
    simp only [Option.getD_some]
    rw [Int.fdiv_eq_ediv _ (by norm_num)]
    omega
  · intro h
    refine ⟨plan_days_pairwise _ _ _, ?_, ?_⟩
    · intro d
      rw [plan_days_mem]
      constructor
      · rintro (⟨-, rfl⟩ | hr)
        · exact Or.inl rfl
        · exact Or.inr hr
      · rintro (rfl | hr)
        · exact Or.inl ⟨h, rfl⟩
        · exact Or.inr hr
    · rw [plan_days_mem]
      exact Or.inl ⟨h, rfl⟩

/-- Witness for C6 at `range_start = 10`, `cursor` at noon of day 12,
`range_end = 15`, and a detected gap `[11, 13]`: the effective start is day 12
and the plan is the clipped union. -/
theorem planning_correct_witness :
    (start_of_day_ts (resume_start 10 (12 * 86400000 + 43200000)) ≤ 12 * 86400000 + 43200000
      ∧ (12 * 86400000 + 43200000 : Int) < start_of_day_ts (resume_start 10 (12 * 86400000 + 43200000) + 1))
    ∧ ((plan_days_to_process (resume_start 10 (12 * 86400000 + 43200000)) 15
            [⟨11, 13⟩]).Pairwise (· < ·)
        ∧ (∀ d, d ∈ plan_days_to_process (resume_start 10 (12 * 86400000 + 43200000)) 15 [⟨11, 13⟩]
            ↔ (d = resume_start 10 (12 * 86400000 + 43200000)
                ∨ ((∃ g ∈ [(⟨11, 13⟩ : DateRange)], g.start ≤ d ∧ d ≤ g.stop)
                    ∧ resume_start 10 (12 * 86400000 + 43200000) ≤ d ∧ d ≤ 15)))
        ∧ resume_start 10 (12 * 86400000 + 43200000) ∈
            plan_days_to_process (resume_start 10 (12 * 86400000 + 43200000)) 15 [⟨11, 13⟩]) :=
  ⟨(planning_correct 10 (12 * 86400000 + 43200000) 15 [⟨11, 13⟩]).2.1 (by decide),
   (planning_correct 10 (12 * 86400000 + 43200000) 15 [⟨11, 13⟩]).2.2 (by decide)⟩

/-! ### Fenced operations by the current lease holder succeed -/

theorem update_with_ok (s : StoreLog) (jk I : String) (f : JobState → JobState)
    (st : JobState) (hrec : s.record = some st) (hid : st.job_instance_id = I) :
    update_with s jk I f = .ok (upsert s (f st)) := by
  simp [update_with, hrec, hid]

theorem heartbeat_ok (s : StoreLog) (jk I : String) (ts : Int) (st : JobState)
    (hrec : s.record = some st) (hid : st.job_instance_id = I) :
    heartbeat s jk I ts = .ok (upsert s { st with heartbeat_at := ts }) := by
  rw [heartbeat, update_with_ok s jk I _ st hrec hid]

theorem update_cursor_ok (s : StoreLog) (jk I : String) (c : Int) (st : JobState)
    (hrec : s.record = some st) (hid : st.job_instance_id = I) :
    update_cursor s jk I c = .ok (upsert s { st with cursor := c }) := by
  rw [update_cursor, update_with_ok s jk I _ st hrec hid]

theorem update_status_ok (s : StoreLog) (jk I : String) (status : JobStatus) (st : JobState)
    (hrec : s.record = some st) (hid : st.job_instance_id = I) :
    update_status s jk I status = .ok (upsert s { st with status := status }) := by
  rw [update_status, update_with_ok s jk I _ st hrec hid]

theorem save_error_ok (s : StoreLog) (jk I : String) (msg : String) (st : JobState)
    (hrec : s.record = some st) (hid : st.job_instance_id = I) :
    save_error s jk I msg = .ok (upsert s { st with last_error_type := some msg }) := by
  rw [save_error, update_with_ok s jk I _ st hrec hid]

/-- After a successful `initialize_job` the store's record is exactly the
context's state. -/
theorem initialize_job_ok_record (s0 : StoreLog) (now : Int) (newId symbol : String)
    (range : DateRange) (ctx : JobContext) (s1 : StoreLog)
    (h : initialize_job s0 now newId symbol range = (.ok ctx, s1)) :
    s1.record = some ctx.state := by
  unfold initialize_job at h
  rcases hrec : s0.record with - | st <;> rw [hrec] at h <;> dsimp only at h
  · simp only [Prod.mk.injEq, Except.ok.injEq] at h
    obtain ⟨h1, h2⟩ := h
    subst h1
    subst h2
    rfl
  · by_cases hrun : st.status = JobStatus.Running
    · rw [if_pos hrun] at h
      by_cases hfresh : now - st.heartbeat_at ≤ HEARTBEAT_TIMEOUT
      · rw [if_pos hfresh] at h
        simp at h
      · rw [if_neg hfresh] at h
        simp only [Prod.mk.injEq, Except.ok.injEq] at h
        obtain ⟨h1, h2⟩ := h
        subst h1
        subst h2
        rfl
    · rw [if_neg hrun] at h
      simp only [Prod.mk.injEq, Except.ok.injEq] at h
      obtain ⟨h1, h2⟩ := h
      subst h1
      subst h2
      rfl

/-! ### The per-day loop (C7) -/

/-- Under the single-writer invariant (the store holds a record carrying the
caller's instance id) the loop never fails, and its report counters are the
per-day classification `dayOutcomes`. -/
theorem runDays_ok_spec (o : Oracles) (symbol : String) (now : Int) :
    ∀ (days : List Int) (acc : RunAcc) (s : StoreLog) (rst : JobState),
      s.record = some rst →
      rst.job_instance_id = acc.ctx.state.job_instance_id →
      ∃ acc' s', runDays o symbol now days acc s = (.ok acc', s')
        ∧ acc'.ctx.job_key = acc.ctx.job_key
        ∧ acc'.ctx.state.job_instance_id = acc.ctx.state.job_instance_id
        ∧ (∃ rst', s'.record = some rst'
            ∧ rst'.job_instance_id = acc'.ctx.state.job_instance_id)
        ∧ acc'.days_processed = acc.days_processed +
            ((dayOutcomes o symbol days acc.ctx.state.cursor).filter
              (fun oc => oc.2.isSucceeded)).length
        ∧ acc'.failed_days = acc.failed_days ++
            ((dayOutcomes o symbol days acc.ctx.state.cursor).filterMap
              (fun oc => match oc.2 with
                | DayOutcome.failed m => some (oc.1, m)
                | _ => none))
        ∧ acc'.job_failed = (acc.job_failed ||
            !((dayOutcomes o symbol days acc.ctx.state.cursor).filterMap
              (fun oc => match oc.2 with
                | DayOutcome.failed m => some (oc.1, m)
                | _ => none)).isEmpty) := by
  intro days
  induction days with
  | nil =>
      intro acc s rst hrec hid
      exact ⟨acc, s, rfl, rfl, rfl, ⟨rst, hrec, hid⟩,
        by simp [dayOutcomes], by simp [dayOutcomes], by simp [dayOutcomes]⟩
  | cons date rest ih =>
      intro acc s rst hrec hid
      rw [runDays]
      by_cases hskip : end_of_day_ts date ≤ acc.ctx.state.cursor
      · rw [if_pos hskip]
        obtain ⟨acc', s', hrun, h1, h2, h3, h4, h5, h6⟩ := ih acc s rst hrec hid
        refine ⟨acc', s', hrun, h1, h2, h3, ?_, ?_, ?_⟩ <;>
          rw [dayOutcomes, if_pos hskip]
        · simpa using h4
        · simpa using h5
        · simpa using h6
      · rw [if_neg hskip]
        rw [heartbeat_ok s acc.ctx.job_key acc.ctx.state.job_instance_id now rst hrec hid]
        dsimp only
        rcases hbsd : backfill_single_day o symbol date with e | result
        · -- the day fails: record the error and continue
          dsimp only
          rw [record_error,
            save_error_ok _ acc.ctx.job_key acc.ctx.state.job_instance_id
              (BackfillError.message e) { rst with heartbeat_at := now } rfl hid]
          dsimp only
          obtain ⟨acc', s', hrun, h1, h2, h3, h4, h5, h6⟩ :=
            ih { acc with
                  ctx := { acc.ctx with
                    state := { acc.ctx.state with
                      last_error_type := some (BackfillError.message e) } }
                  failed_days := acc.failed_days ++ [(date, BackfillError.message e)]
                  job_failed := true }
              (upsert (upsert s { rst with heartbeat_at := now })
                { rst with
                  heartbeat_at := now
                  last_error_type := some (BackfillError.message e) })
              { rst with
                heartbeat_at := now
                last_error_type := some (BackfillError.message e) }
              rfl hid
          refine ⟨acc', s', hrun, h1, h2, h3, ?_, ?_, ?_⟩ <;>
            rw [dayOutcomes, if_neg hskip, hbsd]
          · simpa using h4
          · rw [h5]
            simp
          · rw [h6]
            simp
        · -- the day succeeds: persist the advanced cursor and continue
          dsimp only
          rw [update_cursor_ok _ acc.ctx.job_key acc.ctx.state.job_instance_id
              (result.last_timestamp.getD (end_of_day_ts date))
              { rst with heartbeat_at := now } rfl hid]
          dsimp only
          obtain ⟨acc', s', hrun, h1, h2, h3, h4, h5, h6⟩ :=
            ih { acc with
                  total_ticks := acc.total_ticks + result.tick_count
                  days_processed := acc.days_processed + 1
                  ctx := { acc.ctx with
                    state := { acc.ctx.state with
                      cursor := result.last_timestamp.getD (end_of_day_ts date) } } }
              (upsert (upsert s { rst with heartbeat_at := now })
                { rst with
                  heartbeat_at := now
                  cursor := result.last_timestamp.getD (end_of_day_ts date) })
              { rst with
                heartbeat_at := now
                cursor := result.last_timestamp.getD (end_of_day_ts date) }
              rfl hid
          refine ⟨acc', s', hrun, h1, h2, h3, ?_, ?_, ?_⟩ <;>
            rw [dayOutcomes, if_neg hskip, hbsd]
          · rw [h4]
            simp [DayOutcome.isSucceeded]
            omega
          · simpa using h5
          · simpa using h6

/-- Succeeded and failed days partition a subset of the processed day list. -/
theorem dayOutcomes_counts (o : Oracles) (symbol : String) :
    ∀ (days : List Int) (cursor : Int),
      ((dayOutcomes o symbol days cursor).filter (fun oc => oc.2.isSucceeded)).length
      + ((dayOutcomes o symbol days cursor).filterMap
          (fun oc => match oc.2 with
            | DayOutcome.failed m => some (oc.1, m)
            | _ => none)).length
      ≤ days.length := by
  intro days
  induction days with
  | nil => intro cursor; simp [dayOutcomes]
  | cons date rest ih =>
      intro cursor
      rw [dayOutcomes]
      by_cases hskip : end_of_day_ts date ≤ cursor
      · rw [if_pos hskip]
        have := ih cursor
        simp only [List.filter_cons, List.filterMap_cons, List.length_cons]
        simp [DayOutcome.isSucceeded] at this ⊢
        omega
      · rw [if_neg hskip]
        rcases hbsd : backfill_single_day o symbol date with e | result
        · have := ih cursor
          simp only [List.filter_cons, List.filterMap_cons, List.length_cons]
          simp [DayOutcome.isSucceeded] at this ⊢
          omega
        · have := ih (result.last_timestamp.getD (end_of_day_ts date))
          simp only [List.filter_cons, List.filterMap_cons, List.length_cons]
          simp [DayOutcome.isSucceeded] at this ⊢
          omega

/-! ### Claim theorem: C7 -/

/-- C7: for every `backfill_range` run that plans days and returns a report,
`days_processed` counts exactly the planned days whose fetch-and-save
succeeded (skipped days counted in neither total), `failed_days` holds exactly
one `(date, message)` pair per planned day whose fetch or save failed — so
`days_processed + failed_days.length ≤ |planned days|` — and the final status
written is `Failed` when `failed_days` is non-empty and `Completed`
otherwise. -/
theorem backfill_report_correct (o : Oracles) (now : Int) (newId symbol : String)
    (range : DateRange) (s0 : StoreLog) (ctx : JobContext) (s1 : StoreLog)
    (gaps : List DateRange) (report : BackfillReport) (sF : StoreLog)
    (hinit : initialize_job s0 now newId symbol range = (.ok ctx, s1))
    (heff : resume_start range.start ctx.state.cursor ≤ range.stop)
    (hdet : o.detect symbol ⟨resume_start range.start ctx.state.cursor, range.stop⟩ = .ok gaps)
    (hrun : backfill_range o now newId symbol range s0 = (.ok report, sF)) :
    report.days_processed =
      ((dayOutcomes o symbol
          (plan_days_to_process (resume_start range.start ctx.state.cursor) range.stop gaps)
          ctx.state.cursor).filter (fun oc => oc.2.isSucceeded)).length
    ∧ report.failed_days =
      (dayOutcomes o symbol
          (plan_days_to_process (resume_start range.start ctx.state.cursor) range.stop gaps)
          ctx.state.cursor).filterMap
        (fun oc => match oc.2 with
          | DayOutcome.failed m => some (oc.1, m)
          | _ => none)
    ∧ report.days_processed + report.failed_days.length ≤
        (plan_days_to_process (resume_start range.start ctx.state.cursor) range.stop gaps).length
    ∧ ∃ stF, sF.record = some stF
        ∧ stF.status =
            (if report.failed_days.isEmpty then JobStatus.Completed else JobStatus.Failed) := by
  have hrec1 : s1.record = some ctx.state :=
    initialize_job_ok_record s0 now newId symbol range ctx s1 hinit
  obtain ⟨acc', s', hrd, h1, h2, h3, h4, h5, h6⟩ :=
    runDays_ok_spec o symbol now
      (plan_days_to_process (resume_start range.start ctx.state.cursor) range.stop gaps)
      ⟨ctx, 0, 0, [], false⟩ s1 ctx.state hrec1 rfl
  obtain ⟨rst', hrec', hid'⟩ := h3
  unfold backfill_range at hrun
  rw [hinit] at hrun
  dsimp only at hrun
  rw [if_neg (not_lt.mpr heff), hdet] at hrun
  dsimp only at hrun
  rw [hrd] at hrun
  rcases hsd : o.shutdownResult with e | u <;> rw [hsd] at hrun <;> dsimp only at hrun
  · simp at hrun
  · rw [finalize_job,
      update_status_ok s' acc'.ctx.job_key acc'.ctx.state.job_instance_id
        (if acc'.job_failed then JobStatus.Failed else JobStatus.Completed) rst' hrec' hid']
      at hrun
    dsimp only at hrun
    rw [heartbeat_ok _ acc'.ctx.job_key acc'.ctx.state.job_instance_id now
        { rst' with status := if acc'.job_failed then JobStatus.Failed else JobStatus.Completed }
        rfl hid'] at hrun
    dsimp only at hrun
    simp only [Prod.mk.injEq, Except.ok.injEq] at hrun
    obtain ⟨hrep, hsF⟩ := hrun
    subst hrep
    subst hsF
    dsimp only at h4 h5 h6 ⊢
    rw [Nat.zero_add] at h4
    rw [List.nil_append] at h5
    rw [Bool.false_or] at h6
    refine ⟨h4, h5, ?_, ?_⟩
    · rw [h4, h5]
      exact dayOutcomes_counts o symbol _ _
    · refine ⟨_, rfl, ?_⟩
      dsimp only
      rw [h5, h6]
      rcases hfe : ((dayOutcomes o symbol
          (plan_days_to_process (resume_start range.start ctx.state.cursor) range.stop gaps)
          ctx.state.cursor).filterMap
        (fun oc => match oc.2 with
          | DayOutcome.failed m => some (oc.1, m)
          | _ => none)).isEmpty with _ | _ <;> simp [hfe]

/-- Witness for C7: range `[0, 1]`, no prior state, gap `[0, 1]`; day 0 yields
one tick (noon), day 1 fails with `RateLimitExceeded`: the report counts one
processed and one failed day out of two planned. -/
theorem backfill_report_correct_witness :
    (⟨"NQ", ⟨0, 1⟩, 1, 1, [(1, "Gateway error: API rate limit exceeded")]⟩ :
        BackfillReport).days_processed
      + (⟨"NQ", ⟨0, 1⟩, 1, 1, [(1, "Gateway error: API rate limit exceeded")]⟩ :
        BackfillReport).failed_days.length
      ≤ (plan_days_to_process
          (resume_start 0 (freshJobState 0 "id" ⟨0, 1⟩).cursor) 1 [⟨0, 1⟩]).length :=
  (backfill_report_correct
    ⟨fun _ d => if d = 0 then .ok [⟨43200000, "NQ", 1, 1, 1, 1, 1, 1⟩]
        else .error .RateLimitExceeded,
      fun _ _ => .ok [⟨0, 1⟩], fun _ => .ok (), .ok ()⟩
    0 "id" "NQ" ⟨0, 1⟩ ⟨none, []⟩
    ⟨job_key "NQ" 0, freshJobState 0 "id" ⟨0, 1⟩⟩
    (upsert ⟨none, []⟩ (freshJobState 0 "id" ⟨0, 1⟩))
    [⟨0, 1⟩]
    ⟨"NQ", ⟨0, 1⟩, 1, 1, [(1, "Gateway error: API rate limit exceeded")]⟩
    (backfill_range
      ⟨fun _ d => if d = 0 then .ok [⟨43200000, "NQ", 1, 1, 1, 1, 1, 1⟩]
          else .error .RateLimitExceeded,
        fun _ _ => .ok [⟨0, 1⟩], fun _ => .ok (), .ok ()⟩
      0 "id" "NQ" ⟨0, 1⟩ ⟨none, []⟩).2
    rfl (by decide) rfl rfl).2.2.1

/-! ### Cursor monotonicity within a run (C2) -/

/-- A day-aligned cursor lies outside the processing window
`(start_of_day, end_of_day)` of every calendar day. -/
theorem dayAligned_windows (c : Int) (h : dayAligned c) :
    ∀ d : Int, c < start_of_day_ts d ∨ end_of_day_ts d ≤ c := by
  unfold dayAligned end_of_day_ts start_of_day_ts millisPerDay at *
  rw [Int.fdiv_eq_ediv _ (by norm_num)] at h
  intro d
  rcases le_or_lt d (c / 86400000) with hd | hd
  · right
    have : d * 86400000 ≤ c / 86400000 * 86400000 := by omega
    omega
  · left
    have : (c / 86400000 + 1) * 86400000 ≤ d * 86400000 := by omega
    omega

/-- The fresh cursor `start_of_day_ts d - 1` sits at the very end of day
`d - 1`. -/
theorem dayAligned_fresh (d : Int) : dayAligned (start_of_day_ts d - 1) := by
  unfold dayAligned end_of_day_ts start_of_day_ts millisPerDay
  rw [Int.fdiv_eq_ediv _ (by norm_num)]
  omega

/-- When fetched batches stay within their day, the cursor value a successful
day produces (`last tick's timestamp`, or `end_of_day_ts` for an empty day)
lies within that day. -/
theorem backfill_single_day_cursor (o : Oracles) (symbol : String) (date : Int)
    (hfetch : ∀ ticks, o.fetch symbol date = .ok ticks → ticksWithinDay ticks date)
    (result : DayResult) (h : backfill_single_day o symbol date = .ok result) :
    start_of_day_ts date ≤ result.last_timestamp.getD (end_of_day_ts date)
    ∧ result.last_timestamp.getD (end_of_day_ts date) ≤ end_of_day_ts date := by
  unfold backfill_single_day at h
  rcases hf : o.fetch symbol date with e | ticks <;> rw [hf] at h
  · exact absurd h (by simp)
  · dsimp only at h
    have hres : result = ⟨ticks.length, ticks.getLast?.map Tick.timestamp⟩ := by
      by_cases hemp : ticks.isEmpty
      · rw [if_pos hemp] at h
        simp only [Except.ok.injEq] at h
        exact h.symm
      · rw [if_neg hemp] at h
        rcases hs : o.save ticks with e | u <;> rw [hs] at h
        · exact absurd h (by simp)
        · simp only [Except.ok.injEq] at h
          exact h.symm
    subst hres
    rcases hl : ticks.getLast? with - | t
    · simp only [hl, Option.map_none', Option.getD_none]
      unfold start_of_day_ts end_of_day_ts millisPerDay
      omega
    · simp only [hl, Option.map_some', Option.getD_some]
      have ht : t ∈ ticks := List.mem_of_mem_getLast? (by rw [hl]; rfl)
      obtain ⟨h1, h2⟩ := hfetch ticks hf t ht
      exact ⟨h1, h2⟩

/-- The per-day loop only moves the cursor forward: under the single-writer
invariant, with the planned days strictly ascending and the entry cursor
outside every day's processing window, the loop succeeds and appends writes
whose cursor values form a non-decreasing chain anchored at the entry
record. -/
theorem runDays_writes_chain (o : Oracles) (symbol : String) (now : Int)
    (hfetch : ∀ (d : Int) (ticks : List Tick),
      o.fetch symbol d = .ok ticks → ticksWithinDay ticks d) :
    ∀ (days : List Int) (acc : RunAcc) (s : StoreLog) (rst : JobState),
      s.record = some rst →
      rst.job_instance_id = acc.ctx.state.job_instance_id →
      rst.cursor = acc.ctx.state.cursor →
      List.Pairwise (· < ·) days →
      (∀ d ∈ days, acc.ctx.state.cursor < start_of_day_ts d
          ∨ end_of_day_ts d ≤ acc.ctx.state.cursor) →
      ∃ acc' s' rst' W, runDays o symbol now days acc s = (.ok acc', s')
        ∧ s'.record = some rst'
        ∧ rst'.job_instance_id = acc'.ctx.state.job_instance_id
        ∧ rst'.cursor = acc'.ctx.state.cursor
        ∧ s'.writes = s.writes ++ W
        ∧ List.Chain' (fun a b => a.cursor ≤ b.cursor) (rst :: W)
        ∧ (rst :: W).getLast? = some rst' := by
  intro days
  induction days with
  | nil =>
      intro acc s rst hrec hid hcm hdays hcur
      exact ⟨acc, s, rst, [], rfl, hrec, hid, hcm, by simp,
        List.chain'_singleton rst, rfl⟩
  | cons date rest ih =>
      intro acc s rst hrec hid hcm hdays hcur
      obtain ⟨hd1, hdtl⟩ := List.pairwise_cons.mp hdays
      rw [runDays]
      by_cases hskip : end_of_day_ts date ≤ acc.ctx.state.cursor
      · rw [if_pos hskip]
        exact ih acc s rst hrec hid hcm hdtl
          (fun d hd => hcur d (List.mem_cons_of_mem _ hd))
      · rw [if_neg hskip]
        have hstart : acc.ctx.state.cursor < start_of_day_ts date := by
          rcases hcur date (List.mem_cons_self _ _) with h | h
          · exact h
          · exact absurd h hskip
        rw [heartbeat_ok s acc.ctx.job_key acc.ctx.state.job_instance_id now rst hrec hid]
        dsimp only
        rcases hbsd : backfill_single_day o symbol date with e | result
        · -- failed day: save_error preserves the cursor
          dsimp only
          rw [record_error,
            save_error_ok _ acc.ctx.job_key acc.ctx.state.job_instance_id
              (BackfillError.message e) { rst with heartbeat_at := now } rfl hid]
          dsimp only
          obtain ⟨acc', s', rst', W, hrun, hrec', hid', hcm', hw', hchain, hlast⟩ :=
            ih { acc with
                  ctx := { acc.ctx with
                    state := { acc.ctx.state with
                      last_error_type := some (BackfillError.message e) } }
                  failed_days := acc.failed_days ++ [(date, BackfillError.message e)]
                  job_failed := true }
              (upsert (upsert s { rst with heartbeat_at := now })
                { rst with
                  heartbeat_at := now
                  last_error_type := some (BackfillError.message e) })
              { rst with
                heartbeat_at := now
                last_error_type := some (BackfillError.message e) }
              rfl hid hcm hdtl
              (fun d hd => hcur d (List.mem_cons_of_mem _ hd))
          refine ⟨acc', s', rst',
            { rst with heartbeat_at := now } ::
              { rst with
                heartbeat_at := now
                last_error_type := some (BackfillError.message e) } :: W,
            hrun, hrec', hid', hcm', ?_, ?_, ?_⟩
          · rw [hw']
            simp [upsert]
          · rw [List.chain'_cons, List.chain'_cons]
            exact ⟨le_refl _, le_refl _, hchain⟩
          · rw [List.getLast?_cons_cons, List.getLast?_cons_cons]
            exact hlast
        · -- successful day: the cursor advances into the fetched day
          dsimp only
          rw [update_cursor_ok _ acc.ctx.job_key acc.ctx.state.job_instance_id
              (result.last_timestamp.getD (end_of_day_ts date))
              { rst with heartbeat_at := now } rfl hid]
          dsimp only
          obtain ⟨hc1, hc2⟩ :=
            backfill_single_day_cursor o symbol date (fun ticks h => hfetch date ticks h)
              result hbsd
          obtain ⟨acc', s', rst', W, hrun, hrec', hid', hcm', hw', hchain, hlast⟩ :=
            ih { acc with
                  total_ticks := acc.total_ticks + result.tick_count
                  days_processed := acc.days_processed + 1
                  ctx := { acc.ctx with
                    state := { acc.ctx.state with
                      cursor := result.last_timestamp.getD (end_of_day_ts date) } } }
              (upsert (upsert s { rst with heartbeat_at := now })
                { rst with
                  heartbeat_at := now
                  cursor := result.last_timestamp.getD (end_of_day_ts date) })
              { rst with
                heartbeat_at := now
                cursor := result.last_timestamp.getD (end_of_day_ts date) }
              rfl hid rfl hdtl
              (by
                intro d hd
                left
                have hlt : date < d := hd1 d hd
                have : end_of_day_ts date < start_of_day_ts d := by
                  unfold start_of_day_ts end_of_day_ts millisPerDay
                  have : (date + 1) * 86400000 ≤ d * 86400000 := by omega
                  omega
                dsimp only
                omega)
          refine ⟨acc', s', rst',
            { rst with heartbeat_at := now } ::
              { rst with
                heartbeat_at := now
                cursor := result.last_timestamp.getD (end_of_day_ts date) } :: W,
            hrun, hrec', hid', hcm', ?_, ?_, ?_⟩
          · rw [hw']
            simp [upsert]
          · rw [List.chain'_cons, List.chain'_cons]
            refine ⟨le_refl _, ?_, hchain⟩
            show rst.cursor ≤ result.last_timestamp.getD (end_of_day_ts date)
            omega
          · rw [List.getLast?_cons_cons, List.getLast?_cons_cons]
            exact hlast

/-- `initialize_job` either rejects the call leaving the store untouched, or
upserts the context state, whose cursor is either the fresh
`start_of_day_ts(range.start) - 1` or the preserved stored cursor. -/
theorem initialize_job_cases (s0 : StoreLog) (now : Int) (newId symbol : String)
    (range : DateRange) :
    (∃ e, initialize_job s0 now newId symbol range = (.error e, s0))
    ∨ (∃ ctx : JobContext,
        initialize_job s0 now newId symbol range = (.ok ctx, upsert s0 ctx.state)
        ∧ (ctx.state.cursor = start_of_day_ts range.start - 1
            ∨ ∃ st, s0.record = some st ∧ ctx.state.cursor = st.cursor)) := by
  unfold initialize_job
  rcases hrec : s0.record with - | st <;> dsimp only
  · right
    exact ⟨⟨job_key symbol range.start, freshJobState now newId range⟩, rfl, Or.inl rfl⟩
  · by_cases hrun : st.status = JobStatus.Running
    · rw [if_pos hrun]
      by_cases hfresh : now - st.heartbeat_at ≤ HEARTBEAT_TIMEOUT
      · rw [if_pos hfresh]
        exact Or.inl ⟨_, rfl⟩
      · rw [if_neg hfresh]
        right
        refine ⟨⟨job_key symbol range.start,
          { st with
            job_instance_id := newId
            status := JobStatus.Running
            heartbeat_at := now }⟩, rfl, Or.inr ⟨st, rfl, rfl⟩⟩
    · rw [if_neg hrun]
      right
      exact ⟨⟨job_key symbol range.start, freshJobState now newId range⟩, rfl, Or.inl rfl⟩

/-! ### Claim theorem: C2 -/

/-- C2 (amended): within a single `backfill_range` invocation the persisted
cursor never decreases from one job-state write to the next, provided every
fetched batch's ticks lie within the fetched calendar day and the stored
cursor on entry is day-aligned (in the final second of its day, as are the
fresh `start_of_day_ts - 1` value and the `end_of_day_ts` value written for a
processed day whose last tick is at or after 23:59:59).  Across invocations
the original claim fails: re-initialization over a terminal record resets the
cursor (see the counterexample and C1). -/
theorem cursor_monotone_run (o : Oracles) (now : Int) (newId symbol : String)
    (range : DateRange) (s0 : StoreLog)
    (hw0 : s0.writes = [])
    (hfetch : ∀ (d : Int) (ticks : List Tick),
      o.fetch symbol d = .ok ticks → ticksWithinDay ticks d)
    (halign : ∀ st, s0.record = some st → dayAligned st.cursor) :
    List.Chain' (fun a b : JobState => a.cursor ≤ b.cursor)
      ((backfill_range o now newId symbol range s0).2.writes) := by
  unfold backfill_range
  rcases initialize_job_cases s0 now newId symbol range with ⟨e, hinit⟩ | ⟨ctx, hinit, hcur0⟩
  · rw [hinit]
    dsimp only
    rw [hw0]
    exact List.chain'_nil
  · rw [hinit]
    dsimp only
    have halignc : dayAligned ctx.state.cursor := by
      rcases hcur0 with h | ⟨st, hst, h⟩
      · rw [h]
        exact dayAligned_fresh _
      · rw [h]
        exact halign st hst
    by_cases heff : resume_start range.start ctx.state.cursor > range.stop
    · rw [if_pos heff, finalize_job,
        update_status_ok (upsert s0 ctx.state) ctx.job_key ctx.state.job_instance_id
          JobStatus.Completed ctx.state rfl rfl]
      dsimp only
      rw [heartbeat_ok _ ctx.job_key ctx.state.job_instance_id now
          { ctx.state with status := JobStatus.Completed } rfl rfl]
      dsimp only
      simp only [upsert, hw0, List.nil_append, List.cons_append, List.append_assoc,
        List.singleton_append]
      rw [List.chain'_cons, List.chain'_cons]
      exact ⟨le_refl _, le_refl _, List.chain'_singleton _⟩
    · rw [if_neg heff]
      rcases hdet : o.detect symbol ⟨resume_start range.start ctx.state.cursor, range.stop⟩
        with e | gaps <;> dsimp only
      · simp [upsert, hw0]
      · obtain ⟨acc', s', rst', W, hrd, hrec', hid', hcm', hw', hchain, hlast⟩ :=
          runDays_writes_chain o symbol now hfetch
            (plan_days_to_process (resume_start range.start ctx.state.cursor) range.stop gaps)
            ⟨ctx, 0, 0, [], false⟩ (upsert s0 ctx.state) ctx.state rfl rfl rfl
            (plan_days_pairwise _ _ _)
            (fun d _ => dayAligned_windows _ halignc d)
        rw [hrd]
        dsimp only
        rcases hsd : o.shutdownResult with e | u <;> dsimp only
        · rw [hw']
          simpa [upsert, hw0] using hchain
        · rw [finalize_job,
            update_status_ok s' acc'.ctx.job_key acc'.ctx.state.job_instance_id
              (if acc'.job_failed then JobStatus.Failed else JobStatus.Completed)
              rst' hrec' hid']
          dsimp only
          rw [heartbeat_ok _ acc'.ctx.job_key acc'.ctx.state.job_instance_id now
              { rst' with
                status := if acc'.job_failed then JobStatus.Failed else JobStatus.Completed }
              rfl hid']
          dsimp only
          have hfull : List.Chain' (fun a b : JobState => a.cursor ≤ b.cursor)
              ((ctx.state :: W) ++
                [{ rst' with
                    status := if acc'.job_failed then JobStatus.Failed else JobStatus.Completed },
                  { rst' with
                    status := if acc'.job_failed then JobStatus.Failed else JobStatus.Completed
                    heartbeat_at := now }]) := by
            refine List.chain'_append.mpr ⟨hchain, ?_, ?_⟩
            · rw [List.chain'_cons]
              exact ⟨le_refl _, List.chain'_singleton _⟩
            · intro x hx y hy
              rw [hlast] at hx
              simp only [Option.mem_def, Option.some.injEq] at hx
              subst hx
              simp only [List.head?_cons, Option.mem_def, Option.some.injEq] at hy
              subst hy
              exact le_refl _
          simp only [upsert]
          rw [hw']
          simp only [upsert, hw0, List.nil_append, List.cons_append, List.append_assoc,
            List.singleton_append]
          simpa using hfull

/-- Witness for C2's amended statement: a fresh one-day run over an
empty-batch gateway produces a cursor-monotone write log. -/
theorem cursor_monotone_run_witness :
    List.Chain' (fun a b : JobState => a.cursor ≤ b.cursor)
      ((backfill_range ⟨fun _ _ => .ok [], fun _ _ => .ok [], fun _ => .ok (), .ok ()⟩
        0 "id" "NQ" ⟨0, 0⟩ ⟨none, []⟩).2.writes) :=
  cursor_monotone_run ⟨fun _ _ => .ok [], fun _ _ => .ok [], fun _ => .ok (), .ok ()⟩
    0 "id" "NQ" ⟨0, 0⟩ ⟨none, []⟩ rfl
    (by
      intro d ticks h
      simp only [Except.ok.injEq] at h
      subst h
      intro t ht
      exact absurd ht (List.not_mem_nil t))
    (by rintro st ⟨⟩)

/-- Counterexample to C2 as stated: running the same one-day backfill twice —
the first run completes with cursor `end_of_day_ts 0`, the second finds the
terminal record and re-initializes with cursor `-1` — yields a write sequence
whose persisted cursor decreases. -/
theorem cursor_monotone_counterexample :
    ¬ List.Chain' (fun a b : JobState => a.cursor ≤ b.cursor)
      ((backfill_range ⟨fun _ _ => .ok [], fun _ _ => .ok [], fun _ => .ok (), .ok ()⟩
          0 "id2" "NQ" ⟨0, 0⟩
          (backfill_range ⟨fun _ _ => .ok [], fun _ _ => .ok [], fun _ => .ok (), .ok ()⟩
            0 "id1" "NQ" ⟨0, 0⟩ ⟨none, []⟩).2).2.writes) := by
  intro h
  have h2 : List.Chain' (fun a b : Int => a ≤ b)
      (((backfill_range ⟨fun _ _ => .ok [], fun _ _ => .ok [], fun _ => .ok (), .ok ()⟩
          0 "id2" "NQ" ⟨0, 0⟩
          (backfill_range ⟨fun _ _ => .ok [], fun _ _ => .ok [], fun _ => .ok (), .ok ()⟩
            0 "id1" "NQ" ⟨0, 0⟩ ⟨none, []⟩).2).2.writes).map JobState.cursor) :=
    (List.chain'_map JobState.cursor).mpr h
  rw [show (((backfill_range ⟨fun _ _ => .ok [], fun _ _ => .ok [], fun _ => .ok (), .ok ()⟩
          0 "id2" "NQ" ⟨0, 0⟩
          (backfill_range ⟨fun _ _ => .ok [], fun _ _ => .ok [], fun _ => .ok (), .ok ()⟩
            0 "id1" "NQ" ⟨0, 0⟩ ⟨none, []⟩).2).2.writes).map JobState.cursor)
      = [(-1 : Int), -1, 86399000, 86399000, 86399000, -1, -1, 86399000, 86399000, 86399000]
    from by decide] at h2
  exact absurd h2.tail.tail.tail.tail.rel_head (by decide)

/-! ### Rate limiter (C3) -/

theorem rateLimitScript_deny (ws : List WinState) (now_ms : Int) (request_id : String)
    (h : (ws.map (purgeWindow now_ms)).any windowFull = true) :
    rateLimitScript ws now_ms request_id = (false, ws.map (purgeWindow now_ms)) := by
  simp [rateLimitScript, h]

theorem rateLimitScript_allowed (ws : List WinState) (now_ms : Int) (request_id : String)
    (h : (ws.map (purgeWindow now_ms)).any windowFull = false) :
    rateLimitScript ws now_ms request_id =
      (true, (ws.map (purgeWindow now_ms)).map (admitEntry now_ms request_id)) := by
  simp [rateLimitScript, h]

/-- Purging at a time `t ≤ T` never removes an entry scored at or after
`T - duration·1000`. -/
theorem entriesFrom_purge (T t : Int) (w : WinState) (ht : t ≤ T) :
    entriesFrom (T - (w.window.duration_secs : Int) * 1000) (purgeWindow t w)
      = entriesFrom (T - (w.window.duration_secs : Int) * 1000) w := by
  unfold entriesFrom purgeWindow
  dsimp only
  rw [List.filter_filter]
  refine congrArg _ (List.filter_congr fun e _ => ?_)
  by_cases hx : T - (w.window.duration_secs : Int) * 1000 ≤ e.1
  · simp only [hx, decide_True, Bool.true_and, Bool.and_true]
    exact decide_eq_true (by omega)
  · simp [hx]

theorem entriesFrom_insert (lo t : Int) (id : String) (w : WinState) :
    entriesFrom lo (admitEntry t id w)
      = entriesFrom lo w + (if lo ≤ t then 1 else 0) := by
  unfold entriesFrom admitEntry
  dsimp only
  rw [List.filter_cons]
  by_cases h : lo ≤ t
  · simp [h, Nat.add_comm]
  · simp [h]

theorem entriesFrom_le_length (lo : Int) (w : WinState) :
    entriesFrom lo w ≤ w.entries.length :=
  List.length_filter_le _ _

theorem countAdmitted_cons (lo hi : Int) (r : (Int × String) × Bool)
    (rs : List ((Int × String) × Bool)) :
    countAdmitted lo hi (r :: rs) =
      (if r.2 && decide (lo ≤ r.1.1) && decide (r.1.1 ≤ hi) then 1 else 0)
        + countAdmitted lo hi rs := by
  unfold countAdmitted
  rw [List.filter_cons]
  by_cases h : (r.2 && decide (lo ≤ r.1.1) && decide (r.1.1 ≤ hi)) = true
  · simp [h, Nat.add_comm]
  · simp [h]

/-- Attempts issued strictly after `T` contribute nothing to the count over
`[lo, T]`. -/
theorem countAdmitted_late (lo T : Int) :
    ∀ (attempts : List (Int × String)) (ws : List WinState),
      (∀ a ∈ attempts, T < a.1) →
      countAdmitted lo T (runAcquires ws attempts).1 = 0 := by
  intro attempts
  induction attempts with
  | nil => intro ws h; rfl
  | cons a rest ih =>
      intro ws h
      obtain ⟨t, id⟩ := a
      rw [runAcquires]
      dsimp only
      rw [countAdmitted_cons]
      have ht : ¬ (t ≤ T) := by
        have := h (t, id) (List.mem_cons_self _ _)
        omega
      rw [if_neg (by simp [ht])]
      rw [ih _ (fun a ha => h a (List.mem_cons_of_mem _ ha))]

/-- The per-window budget invariant: the count of admitted attempts in
`[T - duration·1000, T]` plus the window's in-range entries never exceeds the
larger of the limit and the initial in-range entry count. -/
theorem runAcquires_window_bound (T : Int) (W : RateLimitWindow) :
    ∀ (attempts : List (Int × String)) (ws : List WinState) (k : Nat)
      (hk : k < ws.length),
      ws[k].window = W →
      List.Pairwise (fun a b : Int × String => a.1 ≤ b.1) attempts →
      countAdmitted (T - (W.duration_secs : Int) * 1000) T (runAcquires ws attempts).1
        + entriesFrom (T - (W.duration_secs : Int) * 1000) ws[k]
      ≤ max W.limit (entriesFrom (T - (W.duration_secs : Int) * 1000) ws[k]) := by
  intro attempts
  induction attempts with
  | nil =>
      intro ws k hk hw hpw
      have h0 : countAdmitted (T - (W.duration_secs : Int) * 1000) T
          (runAcquires ws []).1 = 0 := rfl
      rw [h0, Nat.zero_add]
      exact le_max_right _ _
  | cons a rest ih =>
      intro ws k hk hw hpw
      obtain ⟨t, id⟩ := a
      obtain ⟨hhd, htl⟩ := List.pairwise_cons.mp hpw
      rw [runAcquires]
      dsimp only
      rw [countAdmitted_cons]
      by_cases hT : t ≤ T
      · -- the attempt is inside the horizon
        by_cases hadm : (ws.map (purgeWindow t)).any windowFull
        · -- DENIED: nothing inserted, in-range entries unchanged
          rw [rateLimitScript_deny ws t id hadm]
          dsimp only
          rw [if_neg (by simp)]
          have hk1 : k < (ws.map (purgeWindow t)).length := by simpa using hk
          have hmap : (ws.map (purgeWindow t))[k] = purgeWindow t ws[k] :=
            List.getElem_map _
          have hpres : entriesFrom (T - (W.duration_secs : Int) * 1000)
              ((ws.map (purgeWindow t))[k])
              = entriesFrom (T - (W.duration_secs : Int) * 1000) ws[k] := by
            rw [hmap, ← hw]
            exact entriesFrom_purge T t ws[k] hT
          have := ih (ws.map (purgeWindow t)) k hk1 (by rw [hmap, ← hw]; rfl) htl
          rw [hpres] at this
          simpa using this
        · -- ADMITTED: the id is inserted into every window
          rw [rateLimitScript_allowed ws t id (by simpa using hadm)]
          dsimp only
          have hk1 : k < (ws.map (purgeWindow t)).length := by simpa using hk
          have hk2 : k < ((ws.map (purgeWindow t)).map (admitEntry t id)).length := by
            simpa using hk
          have hmap1 : (ws.map (purgeWindow t))[k] = purgeWindow t ws[k] :=
            List.getElem_map _
          have hmap2 : ((ws.map (purgeWindow t)).map (admitEntry t id))[k]
              = admitEntry t id (purgeWindow t ws[k]) := by
            rw [List.getElem_map _, hmap1]
          have hwin2 : ((ws.map (purgeWindow t)).map (admitEntry t id))[k].window = W := by
            rw [hmap2, ← hw]
            rfl
          have hadm2 : ∀ x ∈ ws.map (purgeWindow t), ¬ windowFull x = true := by
            simpa [List.any_eq_false] using hadm
          have hnotfull : ¬ windowFull ((ws.map (purgeWindow t))[k]) = true :=
            hadm2 _ (List.getElem_mem hk1)
          have hlt : (purgeWindow t ws[k]).entries.length < W.limit := by
            rw [hmap1] at hnotfull
            unfold windowFull at hnotfull
            simp only [decide_eq_true_eq] at hnotfull
            have : (purgeWindow t ws[k]).window = ws[k].window := rfl
            rw [this, hw] at hnotfull
            omega
          have hm : entriesFrom (T - (W.duration_secs : Int) * 1000) (purgeWindow t ws[k])
              = entriesFrom (T - (W.duration_secs : Int) * 1000) ws[k] := by
            rw [← hw]
            exact entriesFrom_purge T t ws[k] hT
          have hmle : entriesFrom (T - (W.duration_secs : Int) * 1000) ws[k] < W.limit := by
            have := entriesFrom_le_length (T - (W.duration_secs : Int) * 1000)
              (purgeWindow t ws[k])
            omega
          have hins : entriesFrom (T - (W.duration_secs : Int) * 1000)
              (((ws.map (purgeWindow t)).map (admitEntry t id))[k])
              = entriesFrom (T - (W.duration_secs : Int) * 1000) ws[k]
                + (if T - (W.duration_secs : Int) * 1000 ≤ t then 1 else 0) := by
            rw [hmap2, entriesFrom_insert, hm]
          have hrest := ih ((ws.map (purgeWindow t)).map (admitEntry t id)) k hk2 hwin2 htl
          rw [hins] at hrest
          by_cases hlo : T - (W.duration_secs : Int) * 1000 ≤ t
          · rw [if_pos (by simp [hlo, hT])]
            rw [if_pos hlo] at hrest
            rw [max_eq_left (by omega :
                entriesFrom (T - (W.duration_secs : Int) * 1000) ws[k] + 1 ≤ W.limit)]
              at hrest
            exact le_trans (by omega) (le_max_left W.limit _)
          · rw [if_neg (by simp [hlo])]
            rw [if_neg hlo] at hrest
            simpa using hrest
      · -- the attempt (and, by monotonicity, all later ones) is past the horizon
        rw [if_neg (by simp [hT])]
        rw [countAdmitted_late _ T rest _
          (fun a ha => by
            have h1 := hhd a ha
            omega)]
        simp

/-! ### Claim theorem: C3 -/

/-- C3 (spec-modelled: the Lua decision script referenced by
`IbRateLimiter::acquire` is absent from src/ and is modelled from §4.4): a
script invocation is ADMITTED iff after purging every window's count of
retained (admitted, in-window) entries is strictly below its limit; and over
any chronological stream of invocations with fresh request ids starting from
empty windows, the number of ADMITTED attempts in any interval of length
`duration` never exceeds the window's limit. -/
theorem rate_limit_enforced (windows : List RateLimitWindow)
    (attempts : List (Int × String))
    (hmono : List.Pairwise (fun a b : Int × String => a.1 ≤ b.1) attempts)
    (hids : (attempts.map Prod.snd).Nodup) :
    (∀ (ws : List WinState) (t : Int) (id : String),
      (rateLimitScript ws t id).1 = true
        ↔ ∀ w ∈ ws.map (purgeWindow t), w.entries.length < w.window.limit)
    ∧ ∀ W ∈ windows, ∀ T : Int,
        countAdmitted (T - (W.duration_secs : Int) * 1000) T
          (runAcquires (windows.map (fun w => ⟨w, []⟩)) attempts).1
        ≤ W.limit := by
  constructor
  · intro ws t id
    unfold rateLimitScript
    by_cases h : (ws.map (purgeWindow t)).any windowFull
    · rw [if_pos h]
      simp only [List.any_eq_true] at h
      obtain ⟨w, hw, hfull⟩ := h
      unfold windowFull at hfull
      simp only [decide_eq_true_eq] at hfull
      constructor
      · intro hc
        exact absurd hc (by simp)
      · intro hall
        exact absurd (hall w hw) (by omega)
    · rw [if_neg h]
      simp only [true_iff]
      intro w hw
      have h2 : ∀ x ∈ ws.map (purgeWindow t), ¬ windowFull x = true := by
        simpa [List.any_eq_false] using h
      have := h2 w hw
      unfold windowFull at this
      simp only [decide_eq_true_eq] at this
      omega
  · intro W hW T
    obtain ⟨k, hk, hWk⟩ := List.mem_iff_getElem.mp hW
    have hk' : k < (windows.map (fun w => (⟨w, []⟩ : WinState))).length := by
      simpa using hk
    have hwin : (windows.map (fun w => (⟨w, []⟩ : WinState)))[k].window = W := by
      rw [List.getElem_map _, hWk]
    have hempty : entriesFrom (T - (W.duration_secs : Int) * 1000)
        ((windows.map (fun w => (⟨w, []⟩ : WinState)))[k]) = 0 := by
      rw [List.getElem_map _]
      rfl
    have := runAcquires_window_bound T W attempts
      (windows.map (fun w => ⟨w, []⟩)) k hk' hwin hmono
    rw [hempty] at this
    simpa using this

/-- Witness for C3: one window of limit 2 per 1 s, three simultaneous
attempts — at most two are admitted in any 1-second interval ending at
`T = 0`, and the script-level decision rule holds at a concrete state. -/
theorem rate_limit_enforced_witness :
    ((rateLimitScript [⟨⟨2, 1⟩, [(0, "a")]⟩] 0 "x").1 = true
      ↔ ∀ w ∈ [(⟨⟨2, 1⟩, [(0, "a")]⟩ : WinState)].map (purgeWindow 0),
          w.entries.length < w.window.limit)
    ∧ countAdmitted ((0 : Int) - ((1 : Nat) : Int) * 1000) 0
        (runAcquires ([⟨2, 1⟩].map (fun w => ⟨w, []⟩))
          [(0, "a"), (0, "b"), (0, "c")]).1
      ≤ (2 : Nat) :=
  ⟨(rate_limit_enforced [⟨2, 1⟩] [(0, "a"), (0, "b"), (0, "c")]
      (by decide) (by decide)).1 [⟨⟨2, 1⟩, [(0, "a")]⟩] 0 "x",
   (rate_limit_enforced [⟨2, 1⟩] [(0, "a"), (0, "b"), (0, "c")]
      (by decide) (by decide)).2 ⟨2, 1⟩ (by decide) 0⟩

end Pipeline
